import Mathlib

/-!
Verification of the avatar-graph core (`src/lib.rs` of `advancedresearch/avatar_graph`).

The Rust code is shallowly embedded: `Vec` becomes `List`, `usize`/`u64` become `Nat`
(all quantities here are small and non-negative; no arithmetic wraps), `Result` becomes
`Except`, and a Rust `panic!` (out-of-bounds index or `Option::unwrap` failure) is
modelled by returning `none` from an `Option`-valued function.  Loops whose
termination is not structural are given explicit fuel; the fuel chosen at each call
site is proved sufficient where a claim needs totality.  `Vec::binary_search_by`
over a list sorted by vertex with distinct vertices is modelled as the first index
whose first component matches (`lookupIdx`), which agrees with binary search on
every state the code reaches.  Rust's stable sorts (`sort`, `sort_by`, `sort_by_key`)
are modelled by `List.insertionSort`, which is likewise stable.
-/

instance {α β : Type} [DecidableEq α] [DecidableEq β] : DecidableEq (Except α β) :=
  fun a b =>
    match a, b with
    | Except.error x, Except.error y =>
      if h : x = y then isTrue (by rw [h]) else isFalse (fun hc => h (Except.error.inj hc))
    | Except.error _, Except.ok _ => isFalse (fun hc => Except.noConfusion hc)
    | Except.ok _, Except.error _ => isFalse (fun hc => Except.noConfusion hc)
    | Except.ok x, Except.ok y =>
      if h : x = y then isTrue (by rw [h]) else isFalse (fun hc => h (Except.ok.inj hc))

/-- A node of the graph: a `core` flag and an optional unique edge (`Node` in lib.rs). -/
structure Node where
  core : Bool
  uniq : Option Nat
deriving DecidableEq, Repr

/-- An avatar graph: a node table and an edge list (`Graph` in lib.rs). -/
structure Graph where
  nodes : List Node
  edges : List (Nat × Nat)
deriving DecidableEq, Repr

/-- `Graph::edges_of`: all nodes connected to `node` by an edge, in edge-list order.
For each stored edge `(a, b)`, `b` is pushed when `a = node` and `a` is pushed when
`b = node` (a self-loop therefore contributes its endpoint twice). -/
def edges_of (edges : List (Nat × Nat)) (node : Nat) : List Nat :=
  match edges with
  | [] => []
  | (a, b) :: rest =>
      (if a = node then [b] else []) ++ (if b = node then [a] else [])
        ++ edges_of rest node

/-- First index whose first component is `e`; models `binary_search_by(|n| n.0.cmp(&e))`
on a list sorted by distinct first components. -/
def lookupIdx (e : Nat) : List (Nat × Nat) → Option Nat
  | [] => none
  | p :: rest => if p.1 = e then some 0 else (lookupIdx e rest).map (· + 1)

/-- Running minimum update, as in the `min.is_none() || min.unwrap() > dist[k].1` test. -/
def optMin : Option Nat → Nat → Option Nat
  | none, v => some v
  | some m, v => if m > v then some v else some m

/-- Inner scan of `Graph::distance` phase 1: fold the placed list, updating the minimum
over entries whose node equals `e`. -/
def minOver (dist : List (Nat × Nat)) (e : Nat) (acc : Option Nat) : Option Nat :=
  dist.foldl (fun acc p => if p.1 = e then optMin acc p.2 else acc) acc

/-- Minimum placed distance among the neighbours `es`, `none` when no neighbour is placed. -/
def minPlaced (dist : List (Nat × Nat)) (es : List Nat) : Option Nat :=
  es.foldl (fun acc e => minOver dist e acc) none

/-- `Vec::swap_remove i`: replace position `i` by the last element and pop. -/
def swapRemove (l : List Nat) (i : Nat) : List Nat :=
  (l.set i (l.getLastD 0)).dropLast

/-- One pass of the discovery loop of `Graph::distance`: indices are visited from
`i - 1` down to `0` (`for i in (0..nodes.len()).rev()`); a node with a placed
neighbour is appended to `dist` with the minimum placed distance plus one and
`swap_remove`d from the pending list. -/
def distPass (edges : List (Nat × Nat)) :
    Nat → List (Nat × Nat) → List Nat → Bool → List (Nat × Nat) × List Nat × Bool
  | 0, dist, ns, found => (dist, ns, found)
  | i + 1, dist, ns, found =>
    let j := ns.getD i 0
    match minPlaced dist (edges_of edges j) with
    | some m => distPass edges i (dist ++ [(j, m + 1)]) (swapRemove ns i) true
    | none => distPass edges i dist ns found

/-- Lexicographic order on pairs, the `Ord` used by `Vec::<(usize, u64)>::sort`. -/
def pairLE (a b : Nat × Nat) : Prop := a.1 < b.1 ∨ (a.1 = b.1 ∧ a.2 ≤ b.2)

instance : DecidableRel pairLE := fun a b => by unfold pairLE; infer_instance

instance : IsTotal (Nat × Nat) pairLE := by
  constructor
  intro a b
  unfold pairLE
  rcases Nat.lt_trichotomy a.1 b.1 with h | h | h
  · exact Or.inl (Or.inl h)
  · rcases Nat.le_total a.2 b.2 with h2 | h2
    · exact Or.inl (Or.inr ⟨h, h2⟩)
    · exact Or.inr (Or.inr ⟨h.symm, h2⟩)
  · exact Or.inr (Or.inl h)

instance : IsTrans (Nat × Nat) pairLE := by
  constructor
  intro a b c hab hbc
  unfold pairLE at *
  rcases hab with h | ⟨h, h2⟩
  · rcases hbc with h' | ⟨h', _⟩
    · exact Or.inl (h.trans h')
    · exact Or.inl (h'.symm ▸ h)
  · rcases hbc with h' | ⟨h', h2'⟩
    · exact Or.inl (h ▸ h')
    · exact Or.inr ⟨h.trans h', h2.trans h2'⟩

/-- `Vec::<(usize, u64)>::sort()`: stable sort in lexicographic order. -/
def sortPairs (l : List (Nat × Nat)) : List (Nat × Nat) := l.insertionSort pairLE

/-- Order on the second component, the key of `sort_by_key(|n| n.1)`. -/
def sndLE (a b : Nat × Nat) : Prop := a.2 ≤ b.2

instance : DecidableRel sndLE := fun a b => by unfold sndLE; infer_instance

/-- `dist.sort_by_key(|n| n.1)`: stable sort by distance value. -/
def sortBySnd (l : List (Nat × Nat)) : List (Nat × Nat) := l.insertionSort sndLE

/-- Sum of the second components; the termination measure of the relaxation loop. -/
def sumSnd (l : List (Nat × Nat)) : Nat := (l.map Prod.snd).sum

/-- Inner loop of the relaxation phase of `Graph::distance`: for each neighbour `e`
of the node stored at position `j`, look its entry up and lower `dist[j]` when it
exceeds the neighbour's value plus one.  `none` models the `unwrap` panic on a
missing entry and the panic of `dist[j]` when `j` is out of bounds. -/
def relaxEdges (j : Nat) : List Nat → List (Nat × Nat) → Bool →
    Option (List (Nat × Nat) × Bool)
  | [], dist, found => some (dist, found)
  | e :: rest, dist, found =>
    match lookupIdx e dist with
    | none => none
    | some k =>
      match dist.get? j, dist.get? k with
      | some pj, some pk =>
        if pj.2 > pk.2 + 1 then
          relaxEdges j rest (dist.set j (pj.1, pk.2 + 1)) true
        else
          relaxEdges j rest dist found
      | _, _ => none

/-- One full pass of the relaxation loop, visiting the positions `is` in order. -/
def relaxPass (edges : List (Nat × Nat)) :
    List Nat → List (Nat × Nat) → Bool → Option (List (Nat × Nat) × Bool)
  | [], dist, found => some (dist, found)
  | i :: rest, dist, found =>
    match dist.get? i with
    | none => none
    | some pi =>
      match relaxEdges pi.1 (edges_of edges pi.1) dist found with
      | none => none
      | some (dist', found') => relaxPass edges rest dist' found'

/-- The `loop { ... if !found_any {break} }` of `Graph::distance`, with fuel. -/
def relaxLoop (edges : List (Nat × Nat)) : Nat → List (Nat × Nat) →
    Option (List (Nat × Nat))
  | 0, _ => none
  | fuel + 1, dist =>
    match relaxPass edges (List.range dist.length) dist false with
    | none => none
    | some (dist', found) => if found then relaxLoop edges fuel dist' else some dist'

/-- The `while dist.len() < self.nodes.len()` discovery loop of `Graph::distance`,
with fuel.  A pass that places nothing returns the sorted partial list as `Except.error`. -/
def discoverLoop (edges : List (Nat × Nat)) (n : Nat) : Nat → List (Nat × Nat) →
    List Nat → Option (Except (List (Nat × Nat)) (List (Nat × Nat)))
  | 0, _, _ => none
  | fuel + 1, dist, ns =>
    if dist.length < n then
      match distPass edges ns.length dist ns false with
      | (dist', ns', found) =>
        if found then discoverLoop edges n fuel dist' ns'
        else some (Except.error (sortPairs dist'))
    else some (Except.ok dist)

/-- `Graph::distance`, parametrised by the edge list and the node count (the only
parts of the graph the Rust method reads). -/
def distanceC (E : List (Nat × Nat)) (n : Nat) (ind : Nat) :
    Option (Except (List (Nat × Nat)) (List (Nat × Nat))) :=
  match discoverLoop E n (n + 1) [(ind, 0)] ((List.range n).filter (fun x => x ≠ ind)) with
  | none => none
  | some (Except.error e) => some (Except.error e)
  | some (Except.ok dist) =>
    match relaxLoop E (sumSnd (sortPairs dist) + 1) (sortPairs dist) with
    | none => none
    | some d => some (Except.ok d)

/-- `Graph::distance`. -/
def distance (g : Graph) (ind : Nat) :
    Option (Except (List (Nat × Nat)) (List (Nat × Nat))) :=
  distanceC g.edges g.nodes.length ind

/-- `match self.distance(ind) { Ok(x) => x, Err(x) => x }`. -/
def exceptPayload (r : Except (List (Nat × Nat)) (List (Nat × Nat))) : List (Nat × Nat) :=
  match r with
  | Except.ok x => x
  | Except.error x => x

/-- Number of already-placed neighbours of `j` among the prefix `pre`
(the child count of `Graph::avatar_distance`). -/
def countAt (E : List (Nat × Nat)) (pre : List (Nat × Nat)) (j : Nat) : Nat :=
  (edges_of E j).foldl (fun c e => c + (pre.filter (fun p => p.1 == e)).length) 0

/-- The child-counting loop of `Graph::avatar_distance`: walk the distance-ordered
list, writing each node's count into the table `cc`.  `none` models the panic of
`count_children[j]` when `j` is out of bounds. -/
def countChildrenGo (E : List (Nat × Nat)) :
    List (Nat × Nat) → List (Nat × Nat) → List Nat → Option (List Nat)
  | _, [], cc => some cc
  | pre, p :: rest, cc =>
    if p.1 < cc.length then
      countChildrenGo E (pre ++ [p]) rest (cc.set p.1 (countAt E pre p.1))
    else none

/-- Order for `sort_by(|a, b| a.1.cmp(&b.1).then((-cc[a.0]).cmp(&-cc[b.0])))`:
ascending distance, then descending child count. -/
def ccLE (cc : List Nat) (a b : Nat × Nat) : Prop :=
  a.2 < b.2 ∨ (a.2 = b.2 ∧ cc.getD b.1 0 ≤ cc.getD a.1 0)

instance ccLE.instDecidableRel (cc : List Nat) : DecidableRel (ccLE cc) := fun a b => by
  unfold ccLE; infer_instance

/-- Stable sort by ascending distance then descending child count. -/
def sortByCC (cc : List Nat) (l : List (Nat × Nat)) : List (Nat × Nat) :=
  l.insertionSort (ccLE cc)

/-- Children contribution of one processed prefix entry: a child of value `0`
contributes `1`, otherwise its value. -/
def childVal (m : Nat) : Nat := if m = 0 then 1 else m

/-- Sum, over the neighbours `es`, of the avatar values of already-processed entries. -/
def sumChildren (pre : List (Nat × Nat)) (es : List Nat) : Nat :=
  es.foldl (fun s e =>
    s + ((pre.filter (fun p => p.1 == e)).map (fun p => childVal p.2)).sum) 0

/-- The aggregation pass of `Graph::avatar_distance`: walk the re-sorted list and
replace each value by the maximum of itself and the child sum over the processed prefix. -/
def avatarPass (E : List (Nat × Nat)) :
    List (Nat × Nat) → List (Nat × Nat) → List (Nat × Nat)
  | pre, [] => pre
  | pre, (j, d) :: rest =>
    avatarPass E (pre ++ [(j, Nat.max (sumChildren pre (edges_of E j)) d)]) rest

/-- `Graph::avatar_distance`, parametrised by edge list and node count. -/
def avatar_distanceC (E : List (Nat × Nat)) (n : Nat) (ind : Nat) :
    Option (List (Nat × Nat)) :=
  match distanceC E n ind with
  | none => none
  | some r =>
    let dist := sortBySnd (exceptPayload r)
    match countChildrenGo E [] dist (List.replicate n 0) with
    | none => none
    | some cc => some (sortPairs (avatarPass E [] (sortByCC cc dist)))

/-- `Graph::avatar_distance`. -/
def avatar_distance (g : Graph) (ind : Nat) : Option (List (Nat × Nat)) :=
  avatar_distanceC g.edges g.nodes.length ind

/-- One step of the maximum-tracking fold of `Graph::max_avatars`. -/
def maxFoldStep (acc : Nat × List Nat) (p : Nat × Nat) : Nat × List Nat :=
  if p.2 > acc.1 then (p.2, [p.1])
  else if p.2 = acc.1 then (acc.1, acc.2 ++ [p.1])
  else acc

/-- The maximum-tracking fold of `Graph::max_avatars`. -/
def maxFold (dist : List (Nat × Nat)) : Nat × List Nat :=
  dist.foldl maxFoldStep (0, [])

/-- `Graph::max_avatars`, parametrised by edge list and node count. -/
def max_avatarsC (E : List (Nat × Nat)) (n : Nat) (ind : Nat) :
    Option (Nat × List Nat) :=
  (avatar_distanceC E n ind).map maxFold

/-- `Graph::max_avatars`. -/
def max_avatars (g : Graph) (ind : Nat) : Option (Nat × List Nat) :=
  max_avatarsC g.edges g.nodes.length ind

/-- The counting body of `Graph::contractible`: a node is flagged when it has exactly
one neighbour whose value `m` satisfies `0 < m ≤ n`. -/
def contractibleCount (E : List (Nat × Nat)) (dist : List (Nat × Nat)) : Nat :=
  dist.foldl (fun contr p =>
    let cnt := (edges_of E p.1).foldl (fun c e =>
      c + (dist.filter (fun q => q.1 == e && decide (0 < q.2) && decide (q.2 ≤ p.2))).length) 0
    if cnt = 1 then contr + 1 else contr) 0

/-- `Graph::contractible`, parametrised by edge list and node count. -/
def contractibleC (E : List (Nat × Nat)) (n : Nat) (ind : Nat) : Option Nat :=
  (distanceC E n ind).map (fun r => contractibleCount E (sortBySnd (exceptPayload r)))

/-- `Graph::contractible`. -/
def contractible (g : Graph) (ind : Nat) : Option Nat :=
  contractibleC g.edges g.nodes.length ind

/-- Inner neighbour expansion of `Graph::along`: skip reached nodes, look up the
neighbour's entry (`none` models the `unwrap` panic and the `reached[*e]` panic),
skip entries farther than `maxDist`, otherwise push and mark reached. -/
def alongExpand (dist : List (Nat × Nat)) (maxDist : Nat) :
    List Nat → List (Nat × Nat) → List Bool → Option (List (Nat × Nat) × List Bool)
  | [], at_, reached => some (at_, reached)
  | e :: rest, at_, reached =>
    match reached.get? e with
    | none => none
    | some re =>
      if re then alongExpand dist maxDist rest at_ reached
      else
        match lookupIdx e dist with
        | none => none
        | some k =>
          if (dist.getD k (0, 0)).2 > maxDist then alongExpand dist maxDist rest at_ reached
          else alongExpand dist maxDist rest (at_ ++ [dist.getD k (0, 0)]) (reached.set k true)

/-- The walk loop of `Graph::along`, with fuel: stop when the cursor passes the end
or everything is reached; nodes at distance `0` (the target) are not expanded. -/
def alongLoop (E : List (Nat × Nat)) (dist : List (Nat × Nat)) (maxDist : Nat) :
    Nat → Nat → List (Nat × Nat) → List Bool → Option (List (Nat × Nat))
  | 0, _, _, _ => none
  | fuel + 1, i, at_, reached =>
    if i ≥ at_.length then some at_
    else if reached.all (fun x => x) then some at_
    else
      let p := at_.getD i (0, 0)
      match
        (if p.2 ≠ 0 then alongExpand dist maxDist (edges_of E p.1) at_ reached
         else some (at_, reached)) with
      | none => none
      | some (at', reached') => alongLoop E dist maxDist fuel (i + 1) at' reached'

/-- `Vec::<usize>::sort()`. -/
def sortNat (l : List Nat) : List Nat := l.insertionSort (· ≤ ·)

/-- `Graph::along`, parametrised by edge list and node count.  A disconnected graph or
a start node without a distance entry yields `Except.error ()`. -/
def alongC (E : List (Nat × Nat)) (n : Nat) (a b : Nat) :
    Option (Except Unit (List Nat)) :=
  match distanceC E n b with
  | none => none
  | some (Except.error _) => some (Except.error ())
  | some (Except.ok dist) =>
    match lookupIdx a dist with
    | none => some (Except.error ())
    | some k =>
      let maxDist := (dist.getD k (0, 0)).2
      match alongLoop E dist maxDist (n + 2) 0 [dist.getD k (0, 0)]
          ((List.replicate dist.length false).set k true) with
      | none => none
      | some at_ => some (Except.ok (sortNat (at_.map Prod.fst)))

/-- `Graph::along`. -/
def along (g : Graph) (a b : Nat) : Option (Except Unit (List Nat)) :=
  alongC g.edges g.nodes.length a b

/-- `Graph::all_reachable_along`, parametrised by edge list and node count. -/
def all_reachable_alongC (E : List (Nat × Nat)) (n : Nat) (a b : Nat) : Option Bool :=
  (alongC E n a b).map (fun r =>
    match r with
    | Except.ok v => v == List.range n
    | Except.error _ => false)

/-- `Graph::all_reachable_along`. -/
def all_reachable_along (g : Graph) (a b : Nat) : Option Bool :=
  all_reachable_alongC g.edges g.nodes.length a b

/-- The per-edge rule of `Graph::avatar_connectivity` linking the avatar distances
`n` and `m` of the two endpoints. -/
def connRule (n m : Nat) : Bool :=
  match n with
  | 0 => m == 1
  | 1 => m == 0 || decide (m > 1)
  | _ => (decide (m > 0) && decide (m < n)) || decide (m > n)

/-- Neighbour scan of `Graph::avatar_connectivity` for one node of avatar distance
`n`; `none` models the `unwrap` panic on a missing entry. -/
def avatarConnInner (dist : List (Nat × Nat)) (n : Nat) : List Nat → Option Bool
  | [] => some true
  | e :: rest =>
    match lookupIdx e dist with
    | none => none
    | some k =>
      let q := dist.getD k (0, 0)
      if q.1 = e then
        if connRule n q.2 then avatarConnInner dist n rest else some false
      else avatarConnInner dist n rest

/-- Outer loop of `Graph::avatar_connectivity` over the avatar-distance entries. -/
def avatarConnOuter (E : List (Nat × Nat)) (dist : List (Nat × Nat)) :
    List (Nat × Nat) → Option Bool
  | [] => some true
  | p :: rest =>
    match avatarConnInner dist p.2 (edges_of E p.1) with
    | none => none
    | some true => avatarConnOuter E dist rest
    | some false => some false

/-- `Graph::avatar_connectivity`, parametrised by edge list and node count. -/
def avatar_connectivityC (E : List (Nat × Nat)) (n : Nat) (ind : Nat) : Option Bool :=
  match avatar_distanceC E n ind with
  | none => none
  | some dist => avatarConnOuter E dist dist

/-- `Graph::avatar_connectivity`. -/
def avatar_connectivity (g : Graph) (ind : Nat) : Option Bool :=
  avatar_connectivityC g.edges g.nodes.length ind

/-- `Graph::is_avatar_graph`, parametrised by edge list and node count: the five
checks in source order, each `false` short-circuiting. -/
def is_avatar_graphC (E : List (Nat × Nat)) (n : Nat) (ind : Nat) : Option Bool :=
  match contractibleC E n ind with
  | none => none
  | some c =>
    if c ≠ 0 then some false
    else
      match distanceC E n ind with
      | none => none
      | some (Except.error _) => some false
      | some (Except.ok _) =>
        match max_avatarsC E n ind with
        | none => none
        | some ma =>
          match ma.2 with
          | [m] =>
            match all_reachable_alongC E n m ind with
            | none => none
            | some false => some false
            | some true => avatar_connectivityC E n ind
          | _ => some false

/-- `Graph::is_avatar_graph`. -/
def is_avatar_graph (g : Graph) (ind : Nat) : Option Bool :=
  is_avatar_graphC g.edges g.nodes.length ind

/-- One iteration of `Graph::corify` for index `i`: mark and record the unique
maximum avatar, or unmark and clear.  `none` models the `max_avatars(i).1[0]`
panic on an empty list (unreachable after the length-one check). -/
def corifyStep (g : Graph) (i : Nat) : Option Graph :=
  match is_avatar_graph g i with
  | none => none
  | some b =>
    if b then
      match max_avatars g i with
      | none => none
      | some ma =>
        match ma.2 with
        | m :: _ => some { g with nodes := g.nodes.set i { core := true, uniq := some m } }
        | [] => none
    else
      some { g with nodes := g.nodes.set i { core := false, uniq := none } }

/-- The `for i in 0..self.nodes.len()` loop of `Graph::corify`. -/
def corifyAux (g : Graph) : List Nat → Option Graph
  | [] => some g
  | i :: rest =>
    match corifyStep g i with
    | none => none
    | some g' => corifyAux g' rest

/-- `Graph::corify`. -/
def corify (g : Graph) : Option Graph := corifyAux g (List.range g.nodes.length)

/-- The node value `corify` writes at index `i`; used to state the effect of the loop. -/
def targetNode (E : List (Nat × Nat)) (n : Nat) (i : Nat) : Node :=
  match is_avatar_graphC E n i with
  | some true =>
    { core := true, uniq := (max_avatarsC E n i).map (fun ma => ma.2.headD 0) }
  | _ => { core := false, uniq := none }

/-- Number of `false` entries of the `reached` table of `along`. -/
def countFalse (l : List Bool) : Nat := l.count false

/-- Index relabelling `a ↔ b` used by `Graph::swap`. -/
def swapNode (a b x : Nat) : Nat := if x = a then b else if x = b then a else x

/-- `Vec::swap(a, b)` on a list (both indices assumed in bounds, as in the claim). -/
def listSwap (l : List Node) (a b : Nat) : List Node :=
  (l.set a (l.getD b ⟨false, none⟩)).set b (l.getD a ⟨false, none⟩)

/-- `Graph::swap`: relabel both edge endpoints (re-canonicalising), rewrite `uniq`
fields, and exchange the two node slots. -/
def swap (g : Graph) (a b : Nat) : Graph :=
  { nodes :=
      listSwap (g.nodes.map (fun nd => { nd with uniq := nd.uniq.map (swapNode a b) })) a b,
    edges :=
      g.edges.map (fun p =>
        let ea := swapNode a b p.1
        let eb := swapNode a b p.2
        (min ea eb, max ea eb)) }

/-! ### Specification-side notions: walks, reachability, shortest distances -/

/-- `hasWalkB E v k w`: there is a walk of length exactly `k` from `v` to `w`
along the edges `E` (each step moves to a neighbour in the sense of `edges_of`). -/
def hasWalkB (E : List (Nat × Nat)) (v : Nat) : Nat → Nat → Bool
  | 0, w => w == v
  | k + 1, w => (edges_of E w).any (fun u => hasWalkB E v k u)

/-- `w` is reachable from `v`: some walk of some length connects them. -/
def Reachable (E : List (Nat × Nat)) (v w : Nat) : Prop :=
  ∃ k, hasWalkB E v k w = true

/-- `d` is the length of a shortest path from `v` to `w`. -/
def IsShortest (E : List (Nat × Nat)) (v w d : Nat) : Prop :=
  hasWalkB E v d w = true ∧ ∀ k < d, hasWalkB E v k w = false

/-- Every edge endpoint is a valid node index. -/
def EdgesValid (E : List (Nat × Nat)) (n : Nat) : Prop :=
  ∀ p ∈ E, p.1 < n ∧ p.2 < n

instance (E : List (Nat × Nat)) (n : Nat) : Decidable (EdgesValid E n) := by
  unfold EdgesValid; infer_instance

/-- The value stored at position `i` of a distance list. -/
def valAt (l : List (Nat × Nat)) (i : Nat) : Nat := (l.getD i (0, 0)).2

/-- Invariant of the discovery loop: `dist` holds walks of exact length from the
source `v`, the two lists partition the valid indices, and nothing repeats. -/
structure DistInv (E : List (Nat × Nat)) (n v : Nat)
    (dist : List (Nat × Nat)) (ns : List Nat) : Prop where
  nodupFst : (dist.map Prod.fst).Nodup
  nodupNs : ns.Nodup
  walks : ∀ p ∈ dist, hasWalkB E v p.2 p.1 = true
  src : (v, 0) ∈ dist
  nsValid : ∀ x ∈ ns, x < n
  nsNew : ∀ x ∈ ns, x ∉ dist.map Prod.fst
  fstValid : ∀ x ∈ dist.map Prod.fst, x = v ∨ x < n
  cover : ∀ x, x < n → x ∈ dist.map Prod.fst ∨ x ∈ ns

/-- What the discovery loop guarantees on success. -/
structure DiscoverOk (E : List (Nat × Nat)) (n v : Nat) (d : List (Nat × Nat)) : Prop where
  nodupFst : (d.map Prod.fst).Nodup
  walks : ∀ p ∈ d, hasWalkB E v p.2 p.1 = true
  src : (v, 0) ∈ d
  fstValid : ∀ x ∈ d.map Prod.fst, x = v ∨ x < n
  full : n ≤ d.length

/-- What the discovery loop guarantees on failure, stated of the unsorted list. -/
structure DiscoverErr (E : List (Nat × Nat)) (n v : Nat) (d : List (Nat × Nat)) : Prop where
  nodupFst : (d.map Prod.fst).Nodup
  walks : ∀ p ∈ d, hasWalkB E v p.2 p.1 = true
  src : (v, 0) ∈ d
  fstValid : ∀ x ∈ d.map Prod.fst, x = v ∨ x < n
  short : d.length < n
  stuck : ∀ j, j < n → j ∉ d.map Prod.fst → ∀ u ∈ edges_of E j, ∀ m, (u, m) ∉ d

/-! ### Basic lemmas about the helpers -/

lemma mem_edges_of {E : List (Nat × Nat)} {j e : Nat} :
    e ∈ edges_of E j ↔ (j, e) ∈ E ∨ (e, j) ∈ E := by
  induction E with
  | nil => simp [edges_of]
  | cons p rest ih =>
    obtain ⟨a, b⟩ := p
    simp only [edges_of, List.mem_append, List.mem_cons, ih, Prod.mk.injEq]
    by_cases h1 : a = j <;> by_cases h2 : b = j <;>
      simp [h1, h2] <;> constructor <;> intro h <;> tauto

lemma edges_of_symm {E : List (Nat × Nat)} {j e : Nat} :
    e ∈ edges_of E j ↔ j ∈ edges_of E e := by
  rw [mem_edges_of, mem_edges_of]; tauto

lemma edges_of_valid {E : List (Nat × Nat)} {n : Nat} (hE : EdgesValid E n)
    {j e : Nat} (h : e ∈ edges_of E j) : e < n := by
  rcases mem_edges_of.1 h with h' | h'
  · exact (hE _ h').2
  · exact (hE _ h').1

lemma lookupIdx_eq_none {e : Nat} {l : List (Nat × Nat)} :
    lookupIdx e l = none ↔ ∀ p ∈ l, p.1 ≠ e := by
  induction l with
  | nil => simp [lookupIdx]
  | cons p rest ih =>
    by_cases h : p.1 = e <;> simp [lookupIdx, h, ih]

lemma lookupIdx_some {e : Nat} {l : List (Nat × Nat)} {k : Nat}
    (h : lookupIdx e l = some k) : k < l.length ∧ (l.getD k (0, 0)).1 = e := by
  induction l generalizing k with
  | nil => simp [lookupIdx] at h
  | cons p rest ih =>
    by_cases hp : p.1 = e
    · simp [lookupIdx, hp] at h
      subst h
      simpa using hp
    · simp only [lookupIdx, if_neg hp, Option.map_eq_some'] at h
      obtain ⟨k', hk', rfl⟩ := h
      obtain ⟨h1, h2⟩ := ih hk'
      exact ⟨by simpa using h1, by simpa using h2⟩

lemma lookupIdx_isSome_of_mem {e d : Nat} {l : List (Nat × Nat)}
    (h : (e, d) ∈ l) : lookupIdx e l ≠ none := by
  intro hn
  exact lookupIdx_eq_none.1 hn _ h rfl

lemma lookupIdx_range' {l : List (Nat × Nat)} :
    ∀ {s m e : Nat}, l.map Prod.fst = List.range' s m → e ∈ List.range' s m →
      lookupIdx e l = some (e - s) := by
  induction l with
  | nil =>
    intro s m e hmap hmem
    simp only [List.map_nil] at hmap
    rw [← hmap] at hmem
    simp at hmem
  | cons p rest ih =>
    intro s m e hmap hmem
    match m with
    | 0 => rw [List.range'_zero] at hmap; simp at hmap
    | m + 1 =>
      rw [List.range'_succ] at hmap hmem
      simp only [List.map_cons, List.cons.injEq] at hmap
      obtain ⟨hp, hrest⟩ := hmap
      rcases List.mem_cons.1 hmem with rfl | hmem'
      · simp [lookupIdx, hp]
      · have hse : s + 1 ≤ e := (List.mem_range'_1.1 hmem').1
        have : p.1 ≠ e := by omega
        rw [lookupIdx, if_neg this, ih hrest hmem']
        have : e - (s + 1) + 1 = e - s := by omega
        simp [this]

lemma lookupIdx_of_map_fst_range {l : List (Nat × Nat)} {n e : Nat}
    (hmap : l.map Prod.fst = List.range n) (he : e < n) :
    lookupIdx e l = some e := by
  have h1 : l.map Prod.fst = List.range' 0 n := by rw [hmap, List.range_eq_range']
  have h2 : e ∈ List.range' 0 n := by simp [List.mem_range'_1]; omega
  simpa using lookupIdx_range' h1 h2

lemma swapRemove_perm (l : List Nat) : ∀ (i : Nat), i < l.length →
    (swapRemove l i).Perm (l.eraseIdx i) := by
  induction l with
  | nil => intro i h; simp at h
  | cons x xs ih =>
    intro i h
    cases i with
    | zero =>
      cases xs with
      | nil => simp [swapRemove]
      | cons y ys =>
        have hne : (y :: ys) ≠ [] := List.cons_ne_nil y ys
        have hlast : (x :: y :: ys).getLastD 0 = (y :: ys).getLast hne := by
          rw [List.getLastD_cons, List.getLastD_eq_getLast?,
            List.getLast?_eq_getLast _ hne]
          rfl
        have h2 : (y :: ys).dropLast ++ [(y :: ys).getLast hne] = y :: ys :=
          List.dropLast_append_getLast hne
        have heq : swapRemove (x :: y :: ys) 0
            = (y :: ys).getLast hne :: (y :: ys).dropLast := by
          unfold swapRemove
          rw [hlast, List.set_cons_zero,
            List.dropLast_cons_of_ne_nil hne]
        rw [heq, List.eraseIdx_cons_zero]
        exact (List.perm_append_singleton _ _).symm.trans (by rw [h2])
    | succ i =>
      have hi : i < xs.length := by simp at h; omega
      have hxs : xs ≠ [] := by
        intro hc; rw [hc] at hi; simp at hi
      have hset_ne : xs.set i (xs.getLastD 0) ≠ [] := by
        intro hc
        have hlen : (xs.set i (xs.getLastD 0)).length = 0 := by rw [hc]; rfl
        rw [List.length_set] at hlen
        omega
      have hlast : (x :: xs).getLastD 0 = xs.getLastD 0 := by
        cases xs with
        | nil => exact absurd rfl hxs
        | cons z zs => simp [List.getLastD_cons]
      have heq : swapRemove (x :: xs) (i + 1)
          = x :: (xs.set i (xs.getLastD 0)).dropLast := by
        unfold swapRemove
        rw [hlast, List.set_cons_succ, List.dropLast_cons_of_ne_nil hset_ne]
      rw [heq, List.eraseIdx_cons_succ]
      exact (ih i hi).cons x

lemma swapRemove_length {l : List Nat} {i : Nat} (h : i < l.length) :
    (swapRemove l i).length = l.length - 1 := by
  rw [(swapRemove_perm l i h).length_eq]
  have := List.length_eraseIdx_add_one h
  omega

/-! ### Lemmas about the sorting wrappers -/

lemma sortPairs_perm (l : List (Nat × Nat)) : (sortPairs l).Perm l :=
  List.perm_insertionSort _ _

lemma sortPairs_sorted (l : List (Nat × Nat)) : (sortPairs l).Sorted pairLE :=
  List.sorted_insertionSort _ _

lemma sortBySnd_perm (l : List (Nat × Nat)) : (sortBySnd l).Perm l :=
  List.perm_insertionSort _ _

lemma sortByCC_perm (cc : List Nat) (l : List (Nat × Nat)) : (sortByCC cc l).Perm l :=
  List.perm_insertionSort _ _

lemma sortNat_perm (l : List Nat) : (sortNat l).Perm l :=
  List.perm_insertionSort _ _

/-- A `pairLE`-sorted list with no duplicate first components, whose first
components are a permutation of `range n`, lists exactly `(0, _), …, (n - 1, _)`. -/
lemma map_fst_eq_range_of_sorted {l : List (Nat × Nat)} {n : Nat}
    (hs : l.Sorted pairLE) (hperm : (l.map Prod.fst).Perm (List.range n)) :
    l.map Prod.fst = List.range n := by
  have hnd : (l.map Prod.fst).Nodup := hperm.nodup_iff.2 (List.nodup_range n)
  have hsorted : (l.map Prod.fst).Sorted (· ≤ ·) := by
    rw [List.Sorted, List.pairwise_map]
    refine hs.imp ?_
    intro a b hab
    rcases hab with h | ⟨h, _⟩
    · exact Nat.le_of_lt h
    · exact Nat.le_of_eq h
  have hlt : (l.map Prod.fst).Sorted (· < ·) := by
    have := hsorted.and hnd
    exact this.imp (fun h => Nat.lt_of_le_of_ne h.1 h.2)
  exact List.eq_of_perm_of_sorted hperm hlt (List.pairwise_lt_range n)
lemma swapRemove_nodup {l : List Nat} {i : Nat} (hnd : l.Nodup) (h : i < l.length) :
    (swapRemove l i).Nodup :=
  ((swapRemove_perm l i h).nodup_iff).2 ((List.eraseIdx_sublist l i).nodup hnd)

lemma mem_swapRemove {l : List Nat} {i x : Nat} (hnd : l.Nodup) (h : i < l.length) :
    x ∈ swapRemove l i ↔ x ∈ l ∧ x ≠ l.getD i 0 := by
  rw [(swapRemove_perm l i h).mem_iff, ← (List.erase_getElem h).mem_iff,
    List.Nodup.mem_erase_iff hnd, List.getD_eq_getElem _ _ h]
  tauto

/-! ### Walk lemmas -/

lemma hasWalkB_zero {E : List (Nat × Nat)} {v w : Nat} :
    hasWalkB E v 0 w = true ↔ w = v := by
  simp [hasWalkB]

lemma hasWalkB_succ {E : List (Nat × Nat)} {v k w : Nat} :
    hasWalkB E v (k + 1) w = true ↔ ∃ u ∈ edges_of E w, hasWalkB E v k u = true := by
  simp [hasWalkB]

lemma hasWalkB_self {E : List (Nat × Nat)} {v : Nat} : hasWalkB E v 0 v = true := by
  simp [hasWalkB]

lemma reachable_self {E : List (Nat × Nat)} {v : Nat} : Reachable E v v :=
  ⟨0, hasWalkB_self⟩

/-! ### Lemmas about `minPlaced` -/

lemma optMin_ne_none {acc : Option Nat} {x : Nat} : optMin acc x ≠ none := by
  cases acc with
  | none => simp [optMin]
  | some m => by_cases h : m > x <;> simp [optMin, h]

lemma minOver_eq_none_iff {dist : List (Nat × Nat)} {e : Nat} :
    ∀ {acc : Option Nat},
      minOver dist e acc = none ↔ acc = none ∧ ∀ d, (e, d) ∉ dist := by
  induction dist with
  | nil => intro acc; simp [minOver]
  | cons p rest ih =>
    intro acc
    show minOver rest e (if p.1 = e then optMin acc p.2 else acc) = none ↔ _
    rw [ih]
    by_cases h : p.1 = e
    · simp only [if_pos h]
      constructor
      · rintro ⟨hc, _⟩
        exact absurd hc optMin_ne_none
      · rintro ⟨_, hall⟩
        exact absurd (hall p.2) (by simp [← h])
    · simp only [if_neg h]
      constructor
      · rintro ⟨ha, hall⟩
        refine ⟨ha, fun d => ?_⟩
        intro hd
        rcases List.mem_cons.1 hd with hd' | hd'
        · exact h (by rw [← hd'])
        · exact hall d hd'
      · rintro ⟨ha, hall⟩
        exact ⟨ha, fun d hd => hall d (List.mem_cons_of_mem _ hd)⟩

lemma minOver_some_mem {dist : List (Nat × Nat)} {e : Nat} :
    ∀ {acc : Option Nat} {m : Nat},
      minOver dist e acc = some m → acc = some m ∨ (e, m) ∈ dist := by
  induction dist with
  | nil => intro acc m h; exact Or.inl h
  | cons p rest ih =>
    intro acc m h
    replace h : minOver rest e (if p.1 = e then optMin acc p.2 else acc) = some m := h
    rcases ih h with h' | h'
    · by_cases hp : p.1 = e
      · rw [if_pos hp] at h'
        cases acc with
        | none =>
          simp only [optMin] at h'
          have hpm : p = (e, m) := by
            have h2 : p.2 = m := by simpa using h'
            cases p; simp_all
          rw [← hpm]
          exact Or.inr (List.mem_cons_self _ _)
        | some a =>
          simp only [optMin] at h'
          by_cases hgt : a > p.2
          · rw [if_pos hgt] at h'
            have hpm : p = (e, m) := by
              have h2 : p.2 = m := by simpa using h'
              cases p; simp_all
            rw [← hpm]
            exact Or.inr (List.mem_cons_self _ _)
          · rw [if_neg hgt] at h'
            exact Or.inl h'
      · rw [if_neg hp] at h'
        exact Or.inl h'
    · exact Or.inr (List.mem_cons_of_mem _ h')

lemma minPlacedAux_none {dist : List (Nat × Nat)} :
    ∀ (es : List Nat) (acc : Option Nat),
      es.foldl (fun acc e => minOver dist e acc) acc = none ↔
        acc = none ∧ ∀ e ∈ es, ∀ d, (e, d) ∉ dist := by
  intro es
  induction es with
  | nil => intro acc; simp
  | cons e rest ih =>
    intro acc
    show rest.foldl _ (minOver dist e acc) = none ↔ _
    rw [ih, minOver_eq_none_iff]
    constructor
    · rintro ⟨⟨ha, he⟩, hrest⟩
      refine ⟨ha, fun u hu => ?_⟩
      rcases List.mem_cons.1 hu with rfl | hu'
      · exact he
      · exact hrest u hu'
    · rintro ⟨ha, hall⟩
      exact ⟨⟨ha, hall e (List.mem_cons_self _ _)⟩,
        fun u hu => hall u (List.mem_cons_of_mem _ hu)⟩

lemma minPlaced_eq_none_iff {dist : List (Nat × Nat)} {es : List Nat} :
    minPlaced dist es = none ↔ ∀ e ∈ es, ∀ d, (e, d) ∉ dist := by
  unfold minPlaced
  rw [minPlacedAux_none]
  simp

lemma minPlacedAux_some {dist : List (Nat × Nat)} :
    ∀ (es : List Nat) (acc : Option Nat) (m : Nat),
      es.foldl (fun acc e => minOver dist e acc) acc = some m →
        acc = some m ∨ ∃ e ∈ es, (e, m) ∈ dist := by
  intro es
  induction es with
  | nil => intro acc m h; exact Or.inl h
  | cons e rest ih =>
    intro acc m h
    replace h : rest.foldl _ (minOver dist e acc) = some m := h
    rcases ih _ _ h with h' | h'
    · rcases minOver_some_mem h' with h'' | h''
      · exact Or.inl h''
      · exact Or.inr ⟨e, List.mem_cons_self _ _, h''⟩
    · obtain ⟨u, hu, hm⟩ := h'
      exact Or.inr ⟨u, List.mem_cons_of_mem _ hu, hm⟩

lemma minPlaced_some_mem {dist : List (Nat × Nat)} {es : List Nat} {m : Nat}
    (h : minPlaced dist es = some m) : ∃ e ∈ es, (e, m) ∈ dist := by
  rcases minPlacedAux_some es none m h with h' | h'
  · exact absurd h' (by simp)
  · exact h'

/-! ### The discovery phase of `distance` -/

lemma distPass_found_mono (E : List (Nat × Nat)) :
    ∀ (i : Nat) (dist : List (Nat × Nat)) (ns : List Nat),
      (distPass E i dist ns true).2.2 = true := by
  intro i
  induction i with
  | zero => intro dist ns; rfl
  | succ i ih =>
    intro dist ns
    show (match minPlaced dist (edges_of E (ns.getD i 0)) with
      | some m => distPass E i (dist ++ [(ns.getD i 0, m + 1)]) (swapRemove ns i) true
      | none => distPass E i dist ns true).2.2 = true
    cases minPlaced dist (edges_of E (ns.getD i 0)) with
    | some m => exact ih _ _
    | none => exact ih _ _

lemma distPass_spec (E : List (Nat × Nat)) (n v : Nat) :
    ∀ (i : Nat) (dist : List (Nat × Nat)) (ns : List Nat) (found : Bool),
      DistInv E n v dist ns → i ≤ ns.length →
      DistInv E n v (distPass E i dist ns found).1 (distPass E i dist ns found).2.1 ∧
      (distPass E i dist ns found).2.1.length ≤ ns.length ∧
      (found = false → (distPass E i dist ns found).2.2 = true →
        (distPass E i dist ns found).2.1.length < ns.length) ∧
      ((distPass E i dist ns found).2.2 = false →
        (distPass E i dist ns found).1 = dist ∧
        (distPass E i dist ns found).2.1 = ns ∧ found = false ∧
        ∀ k < i, minPlaced dist (edges_of E (ns.getD k 0)) = none) := by
  intro i
  induction i with
  | zero =>
    intro dist ns found hinv _
    refine ⟨hinv, Nat.le_refl _, ?_, ?_⟩
    · intro hf hf'
      rw [hf] at hf'
      cases hf'
    · intro hf
      refine ⟨rfl, rfl, ?_, fun k hk => absurd hk (Nat.not_lt_zero k)⟩
      exact hf
  | succ i ih =>
    intro dist ns found hinv hile
    have hi : i < ns.length := hile
    have hj : ns.getD i 0 ∈ ns := by
      rw [List.getD_eq_getElem _ _ hi]
      exact List.getElem_mem hi
    cases hmp : minPlaced dist (edges_of E (ns.getD i 0)) with
    | some m =>
      have hstep : distPass E (i + 1) dist ns found
          = distPass E i (dist ++ [(ns.getD i 0, m + 1)]) (swapRemove ns i) true := by
        show (match minPlaced dist (edges_of E (ns.getD i 0)) with
          | some m => distPass E i (dist ++ [(ns.getD i 0, m + 1)]) (swapRemove ns i) true
          | none => distPass E i dist ns found) = _
        rw [hmp]
      have hjn : ns.getD i 0 < n := hinv.nsValid _ hj
      have hjnotin : ns.getD i 0 ∉ dist.map Prod.fst := hinv.nsNew _ hj
      have hlen' : (swapRemove ns i).length = ns.length - 1 := swapRemove_length hi
      have hinv' : DistInv E n v (dist ++ [(ns.getD i 0, m + 1)]) (swapRemove ns i) := by
        obtain ⟨e, he, hem⟩ := minPlaced_some_mem hmp
        refine ⟨?_, swapRemove_nodup hinv.nodupNs hi, ?_, ?_, ?_, ?_, ?_, ?_⟩
        · rw [List.map_append]
          rw [List.nodup_append]
          refine ⟨hinv.nodupFst, List.nodup_singleton _, ?_⟩
          simpa using fun hmem => hjnotin hmem
        · intro p hp
          rcases List.mem_append.1 hp with hp' | hp'
          · exact hinv.walks p hp'
          · have hpj : p = (ns.getD i 0, m + 1) := by simpa using hp'
            rw [hpj]
            exact hasWalkB_succ.2 ⟨e, he, hinv.walks _ hem⟩
        · exact List.mem_append_left _ hinv.src
        · intro x hx
          exact hinv.nsValid x ((mem_swapRemove hinv.nodupNs hi).1 hx).1
        · intro x hx
          obtain ⟨hxns, hxne⟩ := (mem_swapRemove hinv.nodupNs hi).1 hx
          rw [List.map_append]
          intro hmem
          rcases List.mem_append.1 hmem with h' | h'
          · exact hinv.nsNew x hxns h'
          · exact hxne (by simpa using h')
        · intro x hx
          rw [List.map_append] at hx
          rcases List.mem_append.1 hx with h' | h'
          · exact hinv.fstValid x h'
          · have hxj : x = ns.getD i 0 := by simpa using h'
            exact Or.inr (hxj ▸ hjn)
        · intro x hxn
          rcases hinv.cover x hxn with h' | h'
          · exact Or.inl (by rw [List.map_append]; exact List.mem_append_left _ h')
          · by_cases hxj : x = ns.getD i 0
            · refine Or.inl ?_
              rw [List.map_append]
              refine List.mem_append_right _ ?_
              simp [hxj]
            · exact Or.inr ((mem_swapRemove hinv.nodupNs hi).2 ⟨h', hxj⟩)
      have hile' : i ≤ (swapRemove ns i).length := by omega
      obtain ⟨ih1, ih2, _, _⟩ :=
        ih (dist ++ [(ns.getD i 0, m + 1)]) (swapRemove ns i) true hinv' hile'
      rw [hstep]
      have hfound :
          (distPass E i (dist ++ [(ns.getD i 0, m + 1)]) (swapRemove ns i) true).2.2
            = true := distPass_found_mono E i _ _
      refine ⟨ih1, by omega, fun _ _ => by omega, fun hf => ?_⟩
      rw [hf] at hfound
      cases hfound
    | none =>
      have hstep : distPass E (i + 1) dist ns found = distPass E i dist ns found := by
        show (match minPlaced dist (edges_of E (ns.getD i 0)) with
          | some m => distPass E i (dist ++ [(ns.getD i 0, m + 1)]) (swapRemove ns i) true
          | none => distPass E i dist ns found) = _
        rw [hmp]
      obtain ⟨ih1, ih2, ih3, ih4⟩ := ih dist ns found hinv (Nat.le_of_succ_le hile)
      rw [hstep]
      refine ⟨ih1, ih2, ih3, fun hf => ?_⟩
      obtain ⟨e1, e2, e3, e4⟩ := ih4 hf
      refine ⟨e1, e2, e3, fun k hk => ?_⟩
      rcases Nat.lt_succ_iff_lt_or_eq.1 hk with hk' | hk'
      · exact e4 k hk'
      · rw [hk']
        exact hmp

lemma discoverLoop_spec (E : List (Nat × Nat)) (n v : Nat) :
    ∀ (fuel : Nat) (dist : List (Nat × Nat)) (ns : List Nat),
      DistInv E n v dist ns → ns.length < fuel →
      (∃ d, discoverLoop E n fuel dist ns = some (Except.ok d) ∧ DiscoverOk E n v d) ∨
      (∃ d, discoverLoop E n fuel dist ns = some (Except.error (sortPairs d)) ∧
        DiscoverErr E n v d) := by
  intro fuel
  induction fuel with
  | zero => intro dist ns _ h; exact absurd h (Nat.not_lt_zero _)
  | succ fuel ih =>
    intro dist ns hinv hfuel
    have hunfold : discoverLoop E n (fuel + 1) dist ns
        = if dist.length < n then
            match distPass E ns.length dist ns false with
            | (dist', ns', found) =>
              if found then discoverLoop E n fuel dist' ns'
              else some (Except.error (sortPairs dist'))
          else some (Except.ok dist) := rfl
    by_cases hlt : dist.length < n
    · obtain ⟨h1, h2, h3, h4⟩ :=
        distPass_spec E n v ns.length dist ns false hinv (Nat.le_refl _)
      rcases hdp : distPass E ns.length dist ns false with ⟨d', n', f'⟩
      rw [hdp] at h1 h2 h3 h4
      cases f' with
      | false =>
        obtain ⟨e1, e2, _, e4⟩ := h4 rfl
        refine Or.inr ⟨dist, ?_, ?_⟩
        · rw [hunfold, if_pos hlt, hdp]
          have e1' : d' = dist := e1
          simp [e1']
        · refine ⟨hinv.nodupFst, hinv.walks, hinv.src, hinv.fstValid, hlt, ?_⟩
          intro j hjn hjnot u hu m hm
          rcases hinv.cover j hjn with hc | hc
          · exact hjnot hc
          · obtain ⟨k, hk, hkj⟩ := List.mem_iff_getElem.1 hc
            have hmin : minPlaced dist (edges_of E j) = none := by
              have he4 := e4 k hk
              rwa [List.getD_eq_getElem _ _ hk, hkj] at he4
            exact minPlaced_eq_none_iff.1 hmin u hu m hm
      | true =>
        have hlen : n'.length < ns.length := by
          have := h3 rfl rfl
          simpa using this
        have hrec := ih d' n' h1 (by omega)
        rcases hrec with ⟨d, hd, hok⟩ | ⟨d, hd, herr⟩
        · refine Or.inl ⟨d, ?_, hok⟩
          rw [hunfold, if_pos hlt, hdp]
          simpa using hd
        · refine Or.inr ⟨d, ?_, herr⟩
          rw [hunfold, if_pos hlt, hdp]
          simpa using hd
    · refine Or.inl ⟨dist, ?_, ?_⟩
      · rw [hunfold, if_neg hlt]
      · exact ⟨hinv.nodupFst, hinv.walks, hinv.src, hinv.fstValid, Nat.le_of_not_lt hlt⟩

/-! ### The relaxation phase of `distance` -/

lemma length_of_map_fst_range {l : List (Nat × Nat)} {n : Nat}
    (h : l.map Prod.fst = List.range n) : l.length = n := by
  have hlen := congrArg List.length h
  simpa using hlen

lemma getD_eq_get_of_lt {l : List (Nat × Nat)} {i : Nat} (h : i < l.length) :
    l.get? i = some (l.getD i (0, 0)) := by
  rw [List.get?_eq_getElem?, List.getD_eq_getElem _ _ h]
  exact List.getElem?_eq_some_iff.2 ⟨h, rfl⟩

lemma getD_mem {l : List (Nat × Nat)} {i : Nat} (h : i < l.length) :
    l.getD i (0, 0) ∈ l := by
  rw [List.getD_eq_getElem _ _ h]
  exact List.getElem_mem h

lemma fst_getD_of_range {l : List (Nat × Nat)} {n i : Nat}
    (h : l.map Prod.fst = List.range n) (hi : i < n) :
    (l.getD i (0, 0)).1 = i := by
  have hlen : l.length = n := length_of_map_fst_range h
  have hil : i < l.length := by omega
  have h1 : (l.map Prod.fst)[i]? = some i := by
    rw [h, List.getElem?_range hi]
  have h2 : l[i]? = some (l.getD i (0, 0)) := by
    rw [← List.get?_eq_getElem?]
    exact getD_eq_get_of_lt hil
  rw [List.getElem?_map, h2] at h1
  simpa using h1

lemma getD_of_mem_fst_range {l : List (Nat × Nat)} {n w d : Nat}
    (hfst : l.map Prod.fst = List.range n) (hmem : (w, d) ∈ l) :
    w < n ∧ l.getD w (0, 0) = (w, d) := by
  have hlen : l.length = n := length_of_map_fst_range hfst
  obtain ⟨i, hi, hiv⟩ := List.mem_iff_getElem.1 hmem
  have hfi : (l.map Prod.fst)[i]? = some w := by
    rw [List.getElem?_eq_some_iff]
    exact ⟨by simpa using hi, by rw [List.getElem_map, hiv]⟩
  rw [hfst] at hfi
  have hin : i < n := by omega
  rw [List.getElem?_range hin] at hfi
  have hiw : i = w := Option.some.inj hfi
  subst hiw
  refine ⟨hin, ?_⟩
  rw [List.getD_eq_getElem _ _ (by omega)]
  exact hiv

lemma sumSnd_set {l : List (Nat × Nat)} :
    ∀ {j : Nat} {p : Nat × Nat}, j < l.length →
      sumSnd (l.set j p) + (l.getD j (0, 0)).2 = sumSnd l + p.2 := by
  induction l with
  | nil => intro j p h; simp at h
  | cons q rest ih =>
    intro j p h
    cases j with
    | zero => simp [sumSnd]; omega
    | succ j =>
      have hj : j < rest.length := by simpa using h
      have := ih (p := p) hj
      simp only [List.set_cons_succ, sumSnd, List.map_cons, List.sum_cons,
        List.getD_cons_succ] at *
      omega

lemma valAt_set_self {l : List (Nat × Nat)} {j y x : Nat} (h : j < l.length) :
    valAt (l.set j (y, x)) j = x := by
  unfold valAt
  rw [List.getD_eq_getElem _ _ (by simpa using h), List.getElem_set]
  simp

lemma valAt_set_ne {l : List (Nat × Nat)} {j i y x : Nat} (h : i ≠ j) :
    valAt (l.set j (y, x)) i = valAt l i := by
  unfold valAt
  rw [List.getD_eq_getElem?_getD, List.getD_eq_getElem?_getD,
    List.getElem?_set_ne (fun hc => h hc.symm)]

lemma map_fst_set_self {l : List (Nat × Nat)} {j x : Nat} (h : j < l.length) :
    (l.set j ((l.getD j (0, 0)).1, x)).map Prod.fst = l.map Prod.fst := by
  apply List.ext_getElem
  · simp
  · intro i h1 h2
    simp only [List.getElem_map, List.getElem_set]
    by_cases hij : i = j
    · subst hij
      rw [if_pos rfl, List.getD_eq_getElem _ _ h]
    · rw [if_neg (fun hc => hij hc.symm)]

lemma relaxEdges_spec (E : List (Nat × Nat)) (n v j : Nat) :
    ∀ (es : List Nat) (dist : List (Nat × Nat)) (found : Bool),
      dist.map Prod.fst = List.range n → j < n →
      (∀ e ∈ es, e < n) → (∀ e ∈ es, e ∈ edges_of E j) →
      (∀ p ∈ dist, hasWalkB E v p.2 p.1 = true) →
      ∃ d' f', relaxEdges j es dist found = some (d', f') ∧
        d'.map Prod.fst = List.range n ∧
        (∀ p ∈ d', hasWalkB E v p.2 p.1 = true) ∧
        (∀ i, valAt d' i ≤ valAt dist i) ∧
        sumSnd d' ≤ sumSnd dist ∧
        (found = false → f' = true → sumSnd d' < sumSnd dist) ∧
        (f' = false → found = false ∧ d' = dist ∧
          ∀ e ∈ es, valAt dist j ≤ valAt dist e + 1) := by
  intro es
  induction es with
  | nil =>
    intro dist found hfst hj _ _ hw
    refine ⟨dist, found, rfl, hfst, hw, fun i => Nat.le_refl _, Nat.le_refl _, ?_, ?_⟩
    · intro h1 h2
      rw [h1] at h2
      cases h2
    · intro h1
      exact ⟨h1, rfl, fun e he => absurd he (List.not_mem_nil e)⟩
  | cons e rest ih =>
    intro dist found hfst hj hvalid hedge hw
    have hlen : dist.length = n := length_of_map_fst_range hfst
    have hen : e < n := hvalid e (List.mem_cons_self _ _)
    have hlook : lookupIdx e dist = some e := lookupIdx_of_map_fst_range hfst hen
    have hgetj : dist.get? j = some (dist.getD j (0, 0)) :=
      getD_eq_get_of_lt (by omega)
    have hgete : dist.get? e = some (dist.getD e (0, 0)) :=
      getD_eq_get_of_lt (by omega)
    have hfstj : (dist.getD j (0, 0)).1 = j := fst_getD_of_range hfst hj
    have hfste : (dist.getD e (0, 0)).1 = e := fst_getD_of_range hfst hen
    by_cases hgt : (dist.getD j (0, 0)).2 > (dist.getD e (0, 0)).2 + 1
    · -- the entry at position j is lowered
      have hstep : relaxEdges j (e :: rest) dist found
          = relaxEdges j rest
              (dist.set j ((dist.getD j (0, 0)).1, (dist.getD e (0, 0)).2 + 1)) true := by
        simp only [relaxEdges, hlook, hgetj, hgete]
        rw [if_pos hgt]
      set dist1 := dist.set j ((dist.getD j (0, 0)).1, (dist.getD e (0, 0)).2 + 1) with hd1
      have hfst1 : dist1.map Prod.fst = List.range n := by
        rw [hd1, map_fst_set_self (by omega)]
        exact hfst
      have hw1 : ∀ p ∈ dist1, hasWalkB E v p.2 p.1 = true := by
        intro p hp
        rcases List.mem_or_eq_of_mem_set hp with hp' | hp'
        · exact hw p hp'
        · rw [hp', hfstj]
          refine hasWalkB_succ.2 ⟨e, hedge e (List.mem_cons_self _ _), ?_⟩
          have := hw _ (getD_mem (l := dist) (i := e) (by omega))
          rwa [hfste] at this
      have hval1 : ∀ i, valAt dist1 i ≤ valAt dist i := by
        intro i
        by_cases hij : i = j
        · subst hij
          rw [hd1, valAt_set_self (by omega)]
          unfold valAt
          omega
        · rw [hd1, valAt_set_ne hij]
      have hsum1 : sumSnd dist1 < sumSnd dist := by
        have := sumSnd_set (l := dist)
          (j := j) (p := ((dist.getD j (0, 0)).1, (dist.getD e (0, 0)).2 + 1)) (by omega)
        simp only [← hd1] at this
        omega
      obtain ⟨d', f', heq, c1, c2, c3, c4, c5, c6⟩ :=
        ih dist1 true hfst1 hj (fun x hx => hvalid x (List.mem_cons_of_mem _ hx))
          (fun x hx => hedge x (List.mem_cons_of_mem _ hx)) hw1
      refine ⟨d', f', by rw [hstep]; exact heq, c1, c2, ?_, ?_, ?_, ?_⟩
      · intro i
        exact Nat.le_trans (c3 i) (hval1 i)
      · omega
      · intro _ _
        omega
      · intro hf'
        obtain ⟨hc, _, _⟩ := c6 hf'
        cases hc
    · -- no update for this neighbour
      have hstep : relaxEdges j (e :: rest) dist found = relaxEdges j rest dist found := by
        simp only [relaxEdges, hlook, hgetj, hgete]
        rw [if_neg hgt]
      obtain ⟨d', f', heq, c1, c2, c3, c4, c5, c6⟩ :=
        ih dist found hfst hj (fun x hx => hvalid x (List.mem_cons_of_mem _ hx))
          (fun x hx => hedge x (List.mem_cons_of_mem _ hx)) hw
      refine ⟨d', f', by rw [hstep]; exact heq, c1, c2, c3, c4, c5, ?_⟩
      intro hf'
      obtain ⟨e1, e2, e3⟩ := c6 hf'
      refine ⟨e1, e2, fun u hu => ?_⟩
      rcases List.mem_cons.1 hu with rfl | hu'
      · unfold valAt
        omega
      · exact e3 u hu'

lemma relaxPass_spec (E : List (Nat × Nat)) (n v : Nat) (hE : EdgesValid E n) :
    ∀ (is : List Nat) (dist : List (Nat × Nat)) (found : Bool),
      dist.map Prod.fst = List.range n →
      (∀ p ∈ dist, hasWalkB E v p.2 p.1 = true) →
      (∀ i ∈ is, i < n) →
      ∃ d' f', relaxPass E is dist found = some (d', f') ∧
        d'.map Prod.fst = List.range n ∧
        (∀ p ∈ d', hasWalkB E v p.2 p.1 = true) ∧
        (∀ i, valAt d' i ≤ valAt dist i) ∧
        sumSnd d' ≤ sumSnd dist ∧
        (found = false → f' = true → sumSnd d' < sumSnd dist) ∧
        (f' = false → found = false ∧ d' = dist ∧
          ∀ i ∈ is, ∀ e ∈ edges_of E i, valAt dist i ≤ valAt dist e + 1) := by
  intro is
  induction is with
  | nil =>
    intro dist found hfst hw _
    refine ⟨dist, found, rfl, hfst, hw, fun i => Nat.le_refl _, Nat.le_refl _, ?_, ?_⟩
    · intro h1 h2
      rw [h1] at h2
      cases h2
    · intro h1
      exact ⟨h1, rfl, fun i hi => absurd hi (List.not_mem_nil i)⟩
  | cons i rest ih =>
    intro dist found hfst hw hvalid
    have hlen : dist.length = n := length_of_map_fst_range hfst
    have hin : i < n := hvalid i (List.mem_cons_self _ _)
    have hgeti : dist.get? i = some (dist.getD i (0, 0)) :=
      getD_eq_get_of_lt (by omega)
    have hfsti : (dist.getD i (0, 0)).1 = i := fst_getD_of_range hfst hin
    obtain ⟨d1, f1, heq1, c1, c2, c3, c4, c5, c6⟩ :=
      relaxEdges_spec E n v i (edges_of E i) dist found hfst hin
        (fun e he => edges_of_valid hE he) (fun e he => he) hw
    have hstep : relaxPass E (i :: rest) dist found
        = relaxPass E rest d1 f1 := by
      simp only [relaxPass, hgeti, hfsti, heq1]
    obtain ⟨d', f', heq, k1, k2, k3, k4, k5, k6⟩ :=
      ih d1 f1 c1 c2 (fun x hx => hvalid x (List.mem_cons_of_mem _ hx))
    refine ⟨d', f', by rw [hstep]; exact heq, k1, k2, ?_, ?_, ?_, ?_⟩
    · intro x
      exact Nat.le_trans (k3 x) (c3 x)
    · omega
    · intro hfd hf'
      subst hfd
      rcases hf1 : f1 with _ | _
      · rw [hf1] at heq k5
        have := k5 rfl hf'
        omega
      · rw [hf1] at c5
        have := c5 rfl rfl
        omega
    · intro hf'
      obtain ⟨hf1, hd1, hrest⟩ := k6 hf'
      obtain ⟨hfd, hdd, hthis⟩ := c6 hf1
      subst hdd
      refine ⟨hfd, hd1, fun x hx => ?_⟩
      rcases List.mem_cons.1 hx with rfl | hx'
      · exact hthis
      · intro u hu
        exact hrest x hx' u hu

lemma relaxLoop_spec (E : List (Nat × Nat)) (n v : Nat) (hE : EdgesValid E n) :
    ∀ (fuel : Nat) (dist : List (Nat × Nat)),
      dist.map Prod.fst = List.range n →
      (∀ p ∈ dist, hasWalkB E v p.2 p.1 = true) →
      sumSnd dist < fuel →
      ∃ d', relaxLoop E fuel dist = some d' ∧
        d'.map Prod.fst = List.range n ∧
        (∀ p ∈ d', hasWalkB E v p.2 p.1 = true) ∧
        (∀ i, valAt d' i ≤ valAt dist i) ∧
        (∀ j, j < n → ∀ e ∈ edges_of E j, valAt d' j ≤ valAt d' e + 1) := by
  intro fuel
  induction fuel with
  | zero => intro dist _ _ h; exact absurd h (Nat.not_lt_zero _)
  | succ fuel ih =>
    intro dist hfst hw hfuel
    have hlen : dist.length = n := length_of_map_fst_range hfst
    obtain ⟨d1, f1, heq1, c1, c2, c3, c4, c5, c6⟩ :=
      relaxPass_spec E n v hE (List.range dist.length) dist false hfst hw
        (fun i hi => by rw [hlen] at hi; simpa using hi)
    have hunfold : relaxLoop E (fuel + 1) dist
        = match relaxPass E (List.range dist.length) dist false with
          | none => none
          | some (dist', found) =>
            if found then relaxLoop E fuel dist' else some dist' := rfl
    cases hf1 : f1 with
    | false =>
      obtain ⟨-, hdd, htri⟩ := c6 hf1
      refine ⟨dist, ?_, hfst, hw, fun i => Nat.le_refl _, ?_⟩
      · rw [hunfold, heq1, hf1]
        simp [hdd]
      · intro j hj u hu
        exact htri j (by rw [hlen]; simpa using hj) u hu
    | true =>
      have hsum : sumSnd d1 < sumSnd dist := c5 rfl hf1
      obtain ⟨d', heq, k1, k2, k3, k4⟩ := ih d1 c1 c2 (by omega)
      refine ⟨d', ?_, k1, k2, ?_, k4⟩
      · rw [hunfold, heq1, hf1]
        simpa using heq
      · intro i
        exact Nat.le_trans (k3 i) (c3 i)

/-! ### The main characterisation of `distanceC` -/

lemma distInv_init (E : List (Nat × Nat)) (n v : Nat) :
    DistInv E n v [(v, 0)] ((List.range n).filter (fun x => x ≠ v)) := by
  refine ⟨?_, ?_, ?_, ?_, ?_, ?_, ?_, ?_⟩
  · simp
  · exact (List.nodup_range n).filter _
  · intro p hp
    have hp' : p = (v, 0) := by simpa using hp
    rw [hp']
    exact hasWalkB_self
  · simp
  · intro x hx
    have := List.mem_filter.1 hx
    simpa using this.1
  · intro x hx
    have := List.mem_filter.1 hx
    have hxv : x ≠ v := by simpa using this.2
    simpa using hxv
  · intro x hx
    have hxv : x = v := by simpa using hx
    exact Or.inl hxv
  · intro x hxn
    by_cases hxv : x = v
    · exact Or.inl (by simp [hxv])
    · refine Or.inr (List.mem_filter.2 ⟨by simpa using hxn, by simpa using hxv⟩)

lemma discoverErr_reach {E : List (Nat × Nat)} {n v : Nat} (hE : EdgesValid E n)
    {d : List (Nat × Nat)} (herr : DiscoverErr E n v d) :
    ∀ (k w : Nat), hasWalkB E v k w = true → w ∈ d.map Prod.fst := by
  intro k
  induction k with
  | zero =>
    intro w hw
    rw [hasWalkB_zero.1 hw]
    exact List.mem_map.2 ⟨(v, 0), herr.src, rfl⟩
  | succ k ih =>
    intro w hw
    obtain ⟨u, hu, hwk⟩ := hasWalkB_succ.1 hw
    have humem : u ∈ d.map Prod.fst := ih u hwk
    by_contra hnot
    have hw_in : w ∈ edges_of E u := edges_of_symm.1 hu
    have hwn : w < n := edges_of_valid hE hw_in
    obtain ⟨p, hp, hpu⟩ := List.mem_map.1 humem
    refine herr.stuck w hwn hnot u hu p.2 ?_
    have : (u, p.2) = p := by
      cases p
      simp_all
    rw [this]
    exact hp

lemma discoverOk_perm {E : List (Nat × Nat)} {n v : Nat} (hv : v < n)
    {d : List (Nat × Nat)} (hok : DiscoverOk E n v d) :
    (d.map Prod.fst).Perm (List.range n) := by
  have hsub : d.map Prod.fst ⊆ List.range n := by
    intro x hx
    rcases hok.fstValid x hx with rfl | h
    · exact List.mem_range.2 hv
    · exact List.mem_range.2 h
  have hsp := List.subperm_of_subset hok.nodupFst hsub
  refine hsp.perm_of_length_le ?_
  simpa using hok.full

lemma fixpoint_min {E : List (Nat × Nat)} {n v : Nat} (hE : EdgesValid E n)
    {l : List (Nat × Nat)} (hv0 : valAt l v = 0)
    (htri : ∀ j, j < n → ∀ e ∈ edges_of E j, valAt l j ≤ valAt l e + 1) :
    ∀ (k w : Nat), w < n → hasWalkB E v k w = true → valAt l w ≤ k := by
  intro k
  induction k with
  | zero =>
    intro w _ hw
    rw [hasWalkB_zero.1 hw, hv0]
  | succ k ih =>
    intro w hwn hw
    obtain ⟨u, hu, hwk⟩ := hasWalkB_succ.1 hw
    have hun : u < n := edges_of_valid hE hu
    have h1 := ih u hun hwk
    have h2 := htri w hwn u hu
    omega

/-- Full case analysis of `distanceC` on a graph with valid edges and a valid source:
success returns one entry per vertex, sorted by vertex and holding the shortest
distance; failure returns a sorted list whose vertices are exactly those reachable
from the source, and strictly fewer than `n` of them. -/
lemma distanceC_spec (E : List (Nat × Nat)) (n v : Nat)
    (hE : EdgesValid E n) (hv : v < n) :
    (∃ l, distanceC E n v = some (Except.ok l) ∧
      l.map Prod.fst = List.range n ∧ (∀ p ∈ l, IsShortest E v p.1 p.2)) ∨
    (∃ l, distanceC E n v = some (Except.error l) ∧
      l.Sorted pairLE ∧ (l.map Prod.fst).Nodup ∧
      (∀ x ∈ l.map Prod.fst, x < n) ∧
      (∀ w, w ∈ l.map Prod.fst ↔ Reachable E v w) ∧
      l.length < n) := by
  have hns : ((List.range n).filter (fun x => x ≠ v)).length < n + 1 := by
    have := List.length_filter_le (fun x => x ≠ v) (List.range n)
    simp only [List.length_range] at this
    omega
  rcases discoverLoop_spec E n v (n + 1) [(v, 0)]
      ((List.range n).filter (fun x => x ≠ v)) (distInv_init E n v) hns with
    ⟨d, hd, hok⟩ | ⟨d, hd, herr⟩
  · -- success: sort, then relax
    left
    have hperm : (d.map Prod.fst).Perm (List.range n) := discoverOk_perm hv hok
    have hsortperm : (sortPairs d).Perm d := sortPairs_perm d
    have hfst : (sortPairs d).map Prod.fst = List.range n :=
      map_fst_eq_range_of_sorted (sortPairs_sorted d) ((hsortperm.map Prod.fst).trans hperm)
    have hw : ∀ p ∈ sortPairs d, hasWalkB E v p.2 p.1 = true := by
      intro p hp
      exact hok.walks p (hsortperm.mem_iff.1 hp)
    obtain ⟨d', heq, k1, k2, k3, k4⟩ :=
      relaxLoop_spec E n v hE (sumSnd (sortPairs d) + 1) (sortPairs d) hfst hw
        (Nat.lt_succ_self _)
    have hdist : distanceC E n v = some (Except.ok d') := by
      have h2 : (match relaxLoop E (sumSnd (sortPairs d) + 1) (sortPairs d) with
          | none => none
          | some x =>
            some ((Except.ok x : Except (List (Nat × Nat)) (List (Nat × Nat)))))
          = some (Except.ok d') := by
        rw [heq]
      unfold distanceC
      rw [hd]
      exact h2
    refine ⟨d', hdist, k1, ?_⟩
    have hsrc : (v, 0) ∈ sortPairs d := hsortperm.mem_iff.2 hok.src
    have hv0' : valAt (sortPairs d) v = 0 := by
      obtain ⟨_, hgd⟩ := getD_of_mem_fst_range hfst hsrc
      unfold valAt
      rw [hgd]
    have hv0 : valAt d' v = 0 := Nat.le_zero.1 (by rw [← hv0']; exact k3 v)
    intro p hp
    have hpn : p.1 < n := by
      have : p.1 ∈ List.range n := by
        rw [← k1]
        exact List.mem_map.2 ⟨p, hp, rfl⟩
      simpa using this
    obtain ⟨-, hgd⟩ := getD_of_mem_fst_range (w := p.1) (d := p.2) k1 (by simpa using hp)
    refine ⟨k2 p hp, ?_⟩
    intro k hk
    cases hwb : hasWalkB E v k p.1 with
    | false => rfl
    | true =>
      have := fixpoint_min hE hv0 k4 k p.1 hpn hwb
      unfold valAt at this
      rw [hgd] at this
      omega
  · -- failure: the sorted partial list
    right
    have hsortperm : (sortPairs d).Perm d := sortPairs_perm d
    have hfperm : ((sortPairs d).map Prod.fst).Perm (d.map Prod.fst) :=
      hsortperm.map Prod.fst
    have hdist : distanceC E n v = some (Except.error (sortPairs d)) := by
      unfold distanceC
      rw [hd]
    refine ⟨sortPairs d, hdist, sortPairs_sorted d, ?_, ?_, ?_, ?_⟩
    · exact hfperm.nodup_iff.2 herr.nodupFst
    · intro x hx
      rcases herr.fstValid x (hfperm.mem_iff.1 hx) with rfl | h
      · exact hv
      · exact h
    · intro w
      constructor
      · intro hwmem
        obtain ⟨p, hp, hpw⟩ := List.mem_map.1 (hfperm.mem_iff.1 hwmem)
        exact ⟨p.2, hpw ▸ herr.walks p hp⟩
      · rintro ⟨k, hk⟩
        exact hfperm.mem_iff.2 (discoverErr_reach hE herr k w hk)
    · rw [hsortperm.length_eq]
      exact herr.short
/-! ### The avatar-distance layer -/

lemma distanceC_payload (E : List (Nat × Nat)) (n v : Nat)
    (hE : EdgesValid E n) (hv : v < n) :
    ∃ r, distanceC E n v = some r ∧
      ((exceptPayload r).map Prod.fst).Nodup ∧
      (∀ x ∈ (exceptPayload r).map Prod.fst, x < n) ∧
      (∀ p ∈ exceptPayload r, ∀ e ∈ edges_of E p.1,
        e ∈ (exceptPayload r).map Prod.fst) := by
  rcases distanceC_spec E n v hE hv with
    ⟨l, hd, hfst, _⟩ | ⟨l, hd, _, hnd, hlt, hiff, _⟩
  · refine ⟨Except.ok l, hd, ?_, ?_, ?_⟩
    · show (l.map Prod.fst).Nodup
      rw [hfst]
      exact List.nodup_range n
    · show ∀ x ∈ l.map Prod.fst, x < n
      rw [hfst]
      intro x hx
      simpa using hx
    · show ∀ p ∈ l, ∀ e ∈ edges_of E p.1, e ∈ l.map Prod.fst
      intro p _ e he
      rw [hfst]
      exact List.mem_range.2 (edges_of_valid hE he)
  · refine ⟨Except.error l, hd, hnd, hlt, ?_⟩
    show ∀ p ∈ l, ∀ e ∈ edges_of E p.1, e ∈ l.map Prod.fst
    intro p hp e he
    have hp1 : p.1 ∈ l.map Prod.fst := List.mem_map.2 ⟨p, hp, rfl⟩
    obtain ⟨k, hk⟩ := (hiff p.1).1 hp1
    refine (hiff e).2 ⟨k + 1, ?_⟩
    exact hasWalkB_succ.2 ⟨p.1, edges_of_symm.1 he, hk⟩

lemma countChildrenGo_some (E : List (Nat × Nat)) :
    ∀ (rest pre : List (Nat × Nat)) (cc : List Nat),
      (∀ p ∈ rest, p.1 < cc.length) →
      ∃ cc', countChildrenGo E pre rest cc = some cc' := by
  intro rest
  induction rest with
  | nil => exact fun pre cc _ => ⟨cc, rfl⟩
  | cons p rest ih =>
    intro pre cc hvalid
    have hp : p.1 < cc.length := hvalid p (List.mem_cons_self _ _)
    have hstep : countChildrenGo E pre (p :: rest) cc
        = countChildrenGo E (pre ++ [p]) rest (cc.set p.1 (countAt E pre p.1)) := by
      show (if p.1 < cc.length then _ else none) = _
      rw [if_pos hp]
    obtain ⟨cc', h⟩ := ih (pre ++ [p]) (cc.set p.1 (countAt E pre p.1))
      (fun q hq => by rw [List.length_set]; exact hvalid q (List.mem_cons_of_mem _ hq))
    exact ⟨cc', by rw [hstep]; exact h⟩

lemma avatarPass_fst (E : List (Nat × Nat)) :
    ∀ (rest pre : List (Nat × Nat)),
      (avatarPass E pre rest).map Prod.fst
        = pre.map Prod.fst ++ rest.map Prod.fst := by
  intro rest
  induction rest with
  | nil => intro pre; simp [avatarPass]
  | cons q rest ih =>
    intro pre
    obtain ⟨j, d⟩ := q
    show (avatarPass E (pre ++ [(j, Nat.max (sumChildren pre (edges_of E j)) d)])
        rest).map Prod.fst = _
    rw [ih]
    simp

lemma avatarPass_ge (E : List (Nat × Nat)) :
    ∀ (rest pre : List (Nat × Nat)), ∀ p ∈ avatarPass E pre rest,
      p ∈ pre ∨ ∃ q ∈ rest, q.1 = p.1 ∧ q.2 ≤ p.2 := by
  intro rest
  induction rest with
  | nil => intro pre p hp; exact Or.inl hp
  | cons q rest ih =>
    intro pre p hp
    obtain ⟨j, d⟩ := q
    have hp' := ih (pre ++ [(j, Nat.max (sumChildren pre (edges_of E j)) d)]) p hp
    rcases hp' with h | h
    · rcases List.mem_append.1 h with h' | h'
      · exact Or.inl h'
      · have hpv : p = (j, Nat.max (sumChildren pre (edges_of E j)) d) := by
          simpa using h'
        refine Or.inr ⟨(j, d), List.mem_cons_self _ _, ?_, ?_⟩
        · rw [hpv]
        · rw [hpv]
          exact Nat.le_max_right _ _
    · obtain ⟨q', hq', hh⟩ := h
      exact Or.inr ⟨q', List.mem_cons_of_mem _ hq', hh⟩

/-- `avatar_distanceC` succeeds on valid input; its entries carry the same vertex
set as the distance payload, and each value bounds the corresponding shortest
distance from below in the entry-wise sense. -/
lemma avatar_distanceC_spec (E : List (Nat × Nat)) (n v : Nat)
    (hE : EdgesValid E n) (hv : v < n) :
    ∃ r ad, distanceC E n v = some r ∧ avatar_distanceC E n v = some ad ∧
      (ad.map Prod.fst).Perm ((exceptPayload r).map Prod.fst) ∧
      (∀ p ∈ ad, ∃ q ∈ exceptPayload r, q.1 = p.1 ∧ q.2 ≤ p.2) := by
  obtain ⟨r, hd, hnd, hlt, hclosed⟩ := distanceC_payload E n v hE hv
  have hsp : (sortBySnd (exceptPayload r)).Perm (exceptPayload r) :=
    sortBySnd_perm _
  obtain ⟨cc, hcc⟩ := countChildrenGo_some E (sortBySnd (exceptPayload r)) []
    (List.replicate n 0)
    (by
      intro p hp
      rw [List.length_replicate]
      exact hlt p.1 (List.mem_map.2 ⟨p, hsp.mem_iff.1 hp, rfl⟩))
  have hccperm : (sortByCC cc (sortBySnd (exceptPayload r))).Perm (exceptPayload r) :=
    (sortByCC_perm cc _).trans hsp
  refine ⟨r, sortPairs (avatarPass E []
    (sortByCC cc (sortBySnd (exceptPayload r)))), hd, ?_, ?_, ?_⟩
  · have h2 : (match countChildrenGo E [] (sortBySnd (exceptPayload r))
          (List.replicate n 0) with
        | none => none
        | some cc =>
          some (sortPairs (avatarPass E []
            (sortByCC cc (sortBySnd (exceptPayload r))))))
        = some (sortPairs (avatarPass E []
            (sortByCC cc (sortBySnd (exceptPayload r))))) := by
      rw [hcc]
    unfold avatar_distanceC
    rw [hd]
    exact h2
  · have hfst := avatarPass_fst E (sortByCC cc (sortBySnd (exceptPayload r))) []
    refine ((sortPairs_perm _).map Prod.fst).trans ?_
    rw [hfst]
    simpa using hccperm.map Prod.fst
  · intro p hp
    have hp' : p ∈ avatarPass E [] (sortByCC cc (sortBySnd (exceptPayload r))) :=
      (sortPairs_perm _).mem_iff.1 hp
    rcases avatarPass_ge E _ [] p hp' with h | ⟨q, hq, hh⟩
    · exact absurd h (List.not_mem_nil p)
    · exact ⟨q, hccperm.mem_iff.1 hq, hh⟩

lemma maxFold_mem :
    ∀ (l : List (Nat × Nat)) (acc : Nat × List Nat) (x : Nat),
      x ∈ (l.foldl maxFoldStep acc).2 → x ∈ acc.2 ∨ ∃ d, (x, d) ∈ l := by
  intro l
  induction l with
  | nil => intro acc x hx; exact Or.inl hx
  | cons p rest ih =>
    intro acc x hx
    rcases ih (maxFoldStep acc p) x hx with h | h
    · unfold maxFoldStep at h
      by_cases h1 : p.2 > acc.1
      · rw [if_pos h1] at h
        have hxp : x = p.1 := by simpa using h
        exact Or.inr ⟨p.2, by rw [hxp]; exact List.mem_cons_self _ _⟩
      · rw [if_neg h1] at h
        by_cases h2 : p.2 = acc.1
        · rw [if_pos h2] at h
          rcases List.mem_append.1 h with h' | h'
          · exact Or.inl h'
          · have hxp : x = p.1 := by simpa using h'
            exact Or.inr ⟨p.2, by rw [hxp]; exact List.mem_cons_self _ _⟩
        · rw [if_neg h2] at h
          exact Or.inl h
    · obtain ⟨d, hd⟩ := h
      exact Or.inr ⟨d, List.mem_cons_of_mem _ hd⟩

/-- `max_avatarsC` succeeds on valid input, and each reported avatar is a vertex
of the avatar-distance list (hence a valid vertex). -/
lemma max_avatarsC_spec (E : List (Nat × Nat)) (n v : Nat)
    (hE : EdgesValid E n) (hv : v < n) :
    ∃ ad, avatar_distanceC E n v = some ad ∧
      max_avatarsC E n v = some (maxFold ad) ∧
      (∀ x ∈ (maxFold ad).2, x < n) := by
  obtain ⟨r, ad, hd, had, hperm, _⟩ := avatar_distanceC_spec E n v hE hv
  obtain ⟨r', hd', _, hlt', _⟩ := distanceC_payload E n v hE hv
  have hrr : r' = r := by
    rw [hd] at hd'
    exact (Option.some.inj hd').symm
  refine ⟨ad, had, ?_, ?_⟩
  · unfold max_avatarsC
    rw [had]
    rfl
  · intro x hx
    rcases maxFold_mem ad (0, []) x hx with h | ⟨d, hdm⟩
    · exact absurd h (List.not_mem_nil x)
    · have hmem : x ∈ ad.map Prod.fst := List.mem_map.2 ⟨(x, d), hdm, rfl⟩
      refine hlt' x ?_
      rw [hrr]
      exact hperm.mem_iff.1 hmem

lemma contractibleC_some (E : List (Nat × Nat)) (n v : Nat)
    (hE : EdgesValid E n) (hv : v < n) :
    ∃ c, contractibleC E n v = some c := by
  obtain ⟨r, hd, _, _, _⟩ := distanceC_payload E n v hE hv
  exact ⟨_, by unfold contractibleC; rw [hd]; rfl⟩

lemma avatar_distanceC_facts (E : List (Nat × Nat)) (n v : Nat)
    (hE : EdgesValid E n) (hv : v < n) :
    ∃ ad, avatar_distanceC E n v = some ad ∧
      (∀ x ∈ ad.map Prod.fst, x < n) ∧
      (∀ p ∈ ad, ∀ e ∈ edges_of E p.1, e ∈ ad.map Prod.fst) := by
  obtain ⟨r, ad, hd, had, hperm, _⟩ := avatar_distanceC_spec E n v hE hv
  obtain ⟨r', hd', hnd, hlt, hclosed⟩ := distanceC_payload E n v hE hv
  have hrr : r' = r := by
    rw [hd] at hd'
    exact (Option.some.inj hd').symm
  subst hrr
  refine ⟨ad, had, ?_, ?_⟩
  · intro x hx
    exact hlt x (hperm.mem_iff.1 hx)
  · intro p hp e he
    have hp1 : p.1 ∈ (exceptPayload r').map Prod.fst :=
      hperm.mem_iff.1 (List.mem_map.2 ⟨p, hp, rfl⟩)
    obtain ⟨q, hq, hq1⟩ := List.mem_map.1 hp1
    refine hperm.mem_iff.2 (hclosed q hq e ?_)
    rw [hq1]
    exact he

/-! ### Totality of `along` -/

lemma countFalse_set_true :
    ∀ (l : List Bool) (k : Nat), l.get? k = some false →
      countFalse (l.set k true) + 1 = countFalse l := by
  intro l
  induction l with
  | nil => intro k h; simp [List.get?] at h
  | cons b rest ih =>
    intro k h
    cases k with
    | zero =>
      have hb : b = false := by simpa [List.get?] using h
      subst hb
      simp [countFalse, List.count_cons]
    | succ k =>
      have h' : rest.get? k = some false := by simpa [List.get?] using h
      have := ih k h'
      simp only [List.set_cons_succ, countFalse, List.count_cons] at *
      omega

lemma alongExpand_spec {n : Nat} (dist : List (Nat × Nat)) (maxD : Nat)
    (hfst : dist.map Prod.fst = List.range n) :
    ∀ (es : List Nat) (at_ : List (Nat × Nat)) (reached : List Bool),
      reached.length = n → (∀ e ∈ es, e < n) →
      ∃ at' reached', alongExpand dist maxD es at_ reached = some (at', reached') ∧
        reached'.length = n ∧
        at'.length + countFalse reached' = at_.length + countFalse reached ∧
        at_.length ≤ at'.length := by
  intro es
  induction es with
  | nil =>
    intro at_ reached h _
    exact ⟨at_, reached, rfl, h, rfl, Nat.le_refl _⟩
  | cons e rest ih =>
    intro at_ reached hlen hval
    have hen : e < n := hval e (List.mem_cons_self _ _)
    have helt : e < reached.length := by omega
    have hget : reached.get? e = some (reached[e]) := by
      rw [List.get?_eq_getElem?]
      exact List.getElem?_eq_some_iff.2 ⟨helt, rfl⟩
    have hrest : ∀ x ∈ rest, x < n := fun x hx => hval x (List.mem_cons_of_mem _ hx)
    have hshow : alongExpand dist maxD (e :: rest) at_ reached
        = (match reached.get? e with
          | none => none
          | some re =>
            if re then alongExpand dist maxD rest at_ reached
            else
              match lookupIdx e dist with
              | none => none
              | some k =>
                if (dist.getD k (0, 0)).2 > maxD then
                  alongExpand dist maxD rest at_ reached
                else
                  alongExpand dist maxD rest (at_ ++ [dist.getD k (0, 0)])
                    (reached.set k true)) := rfl
    cases hre : reached[e] with
    | true =>
      have hstep : alongExpand dist maxD (e :: rest) at_ reached
          = alongExpand dist maxD rest at_ reached := by
        rw [hshow, hget, hre]
        rfl
      obtain ⟨a', r', h1, h2, h3, h4⟩ := ih at_ reached hlen hrest
      exact ⟨a', r', by rw [hstep]; exact h1, h2, h3, h4⟩
    | false =>
      have hlook : lookupIdx e dist = some e := lookupIdx_of_map_fst_range hfst hen
      by_cases hskip : (dist.getD e (0, 0)).2 > maxD
      · have hstep : alongExpand dist maxD (e :: rest) at_ reached
            = alongExpand dist maxD rest at_ reached := by
          rw [hshow, hget, hre, hlook]
          simp only [Bool.false_eq_true, if_false]
          rw [if_pos hskip]
        obtain ⟨a', r', h1, h2, h3, h4⟩ := ih at_ reached hlen hrest
        exact ⟨a', r', by rw [hstep]; exact h1, h2, h3, h4⟩
      · have hstep : alongExpand dist maxD (e :: rest) at_ reached
            = alongExpand dist maxD rest (at_ ++ [dist.getD e (0, 0)])
                (reached.set e true) := by
          rw [hshow, hget, hre, hlook]
          simp only [Bool.false_eq_true, if_false]
          rw [if_neg hskip]
        have hgf : reached.get? e = some false := by rw [hget, hre]
        have hcf := countFalse_set_true reached e hgf
        obtain ⟨a', r', h1, h2, h3, h4⟩ := ih (at_ ++ [dist.getD e (0, 0)])
          (reached.set e true) (by rw [List.length_set]; exact hlen) hrest
        refine ⟨a', r', by rw [hstep]; exact h1, h2, ?_, ?_⟩
        · rw [h3]
          simp only [List.length_append, List.length_cons, List.length_nil]
          omega
        · refine Nat.le_trans ?_ h4
          simp

lemma alongLoop_some (E : List (Nat × Nat)) {n : Nat} (dist : List (Nat × Nat))
    (maxD : Nat) (hfst : dist.map Prod.fst = List.range n) (hE : EdgesValid E n) :
    ∀ (fuel i : Nat) (at_ : List (Nat × Nat)) (reached : List Bool),
      reached.length = n →
      at_.length + countFalse reached < fuel + i →
      i ≤ at_.length →
      ∃ r, alongLoop E dist maxD fuel i at_ reached = some r := by
  intro fuel
  induction fuel with
  | zero =>
    intro i at_ reached _ hm hi
    omega
  | succ fuel ih =>
    intro i at_ reached hlen hm hi
    by_cases hge : i ≥ at_.length
    · exact ⟨at_, by unfold alongLoop; rw [if_pos hge]⟩
    · cases hall : reached.all (fun x => x) with
      | true =>
        refine ⟨at_, ?_⟩
        unfold alongLoop
        rw [if_neg hge, hall]
        simp
      | false =>
        have hexp :
            ∃ at' reached',
              (if (at_.getD i (0, 0)).2 ≠ 0 then
                alongExpand dist maxD (edges_of E (at_.getD i (0, 0)).1) at_ reached
               else some (at_, reached)) = some (at', reached') ∧
              reached'.length = n ∧
              at'.length + countFalse reached' = at_.length + countFalse reached ∧
              at_.length ≤ at'.length := by
          by_cases hnz : (at_.getD i (0, 0)).2 ≠ 0
          · obtain ⟨a', r', h1, h2, h3, h4⟩ := alongExpand_spec dist maxD hfst
              (edges_of E (at_.getD i (0, 0)).1) at_ reached hlen
              (fun e he => edges_of_valid hE he)
            exact ⟨a', r', by rw [if_pos hnz]; exact h1, h2, h3, h4⟩
          · exact ⟨at_, reached, by rw [if_neg hnz], hlen, rfl, Nat.le_refl _⟩
        obtain ⟨at', reached', h1, h2, h3, h4⟩ := hexp
        obtain ⟨r, hr⟩ := ih (i + 1) at' reached' h2 (by omega) (by omega)
        refine ⟨r, ?_⟩
        unfold alongLoop
        rw [if_neg hge, hall]
        simp only [Bool.false_eq_true, if_false]
        rw [h1]
        exact hr

lemma replicate_false_get {m a : Nat} (h : a < m) :
    (List.replicate m false).get? a = some false := by
  rw [List.get?_eq_getElem?]
  refine List.getElem?_eq_some_iff.2 ⟨by simpa using h, ?_⟩
  simp

lemma alongC_some (E : List (Nat × Nat)) (n a b : Nat) (hE : EdgesValid E n)
    (ha : a < n) (hb : b < n) :
    ∃ r, alongC E n a b = some r := by
  rcases distanceC_spec E n b hE hb with ⟨l, hd, hfst, _⟩ | ⟨l, hd, _, _, _, _, _⟩
  · have hlook : lookupIdx a l = some a := lookupIdx_of_map_fst_range hfst ha
    have hlen : l.length = n := length_of_map_fst_range hfst
    have hrlen : ((List.replicate l.length false).set a true).length = n := by
      simp [hlen]
    have hcf : countFalse ((List.replicate l.length false).set a true) + 1 = n := by
      have := countFalse_set_true (List.replicate l.length false) a
        (by rw [hlen]; exact replicate_false_get ha)
      rw [this]
      simp [countFalse, hlen]
    obtain ⟨r, hr⟩ := alongLoop_some E l ((l.getD a (0, 0)).2) hfst hE (n + 2) 0
      [l.getD a (0, 0)] ((List.replicate l.length false).set a true) hrlen
      (by simp; omega) (by simp)
    refine ⟨Except.ok (sortNat (r.map Prod.fst)), ?_⟩
    have h3 : (match alongLoop E l ((l.getD a (0, 0)).2) (n + 2) 0 [l.getD a (0, 0)]
          ((List.replicate l.length false).set a true) with
        | none => none
        | some at_ =>
          some ((Except.ok (sortNat (at_.map Prod.fst)) : Except Unit (List Nat))))
        = some (Except.ok (sortNat (r.map Prod.fst))) := by
      rw [hr]
    have h2 : (match lookupIdx a l with
        | none => some ((Except.error () : Except Unit (List Nat)))
        | some k =>
          match alongLoop E l ((l.getD k (0, 0)).2) (n + 2) 0 [l.getD k (0, 0)]
              ((List.replicate l.length false).set k true) with
          | none => none
          | some at_ => some (Except.ok (sortNat (at_.map Prod.fst))))
        = some (Except.ok (sortNat (r.map Prod.fst))) := by
      rw [hlook]
      exact h3
    unfold alongC
    rw [hd]
    exact h2
  · exact ⟨Except.error (), by unfold alongC; rw [hd]⟩

/-! ### Totality of `avatar_connectivity` and `is_avatar_graph` -/

lemma avatarConnInner_cons (dist : List (Nat × Nat)) (m e : Nat) (rest : List Nat)
    {k : Nat} (hk : lookupIdx e dist = some k) :
    avatarConnInner dist m (e :: rest)
      = (if (dist.getD k (0, 0)).1 = e then
          (if connRule m (dist.getD k (0, 0)).2 then avatarConnInner dist m rest
           else some false)
         else avatarConnInner dist m rest) := by
  simp only [avatarConnInner]
  rw [hk]

lemma avatarConnInner_some (dist : List (Nat × Nat)) (m : Nat) :
    ∀ es, (∀ e ∈ es, e ∈ dist.map Prod.fst) →
      ∃ b, avatarConnInner dist m es = some b := by
  intro es
  induction es with
  | nil => exact fun _ => ⟨true, rfl⟩
  | cons e rest ih =>
    intro hval
    obtain ⟨p, hp, hpe⟩ := List.mem_map.1 (hval e (List.mem_cons_self _ _))
    have hmem : (e, p.2) ∈ dist := by
      have : (e, p.2) = p := by cases p; simp_all
      rw [this]
      exact hp
    obtain ⟨k, hk⟩ := Option.ne_none_iff_exists'.1 (lookupIdx_isSome_of_mem hmem)
    have hrest := fun x hx => hval x (List.mem_cons_of_mem _ hx)
    rw [avatarConnInner_cons dist m e rest hk]
    by_cases h1 : (dist.getD k (0, 0)).1 = e
    · rw [if_pos h1]
      by_cases h2 : connRule m (dist.getD k (0, 0)).2 = true
      · rw [if_pos h2]
        exact ih hrest
      · rw [if_neg h2]
        exact ⟨false, rfl⟩
    · rw [if_neg h1]
      exact ih hrest

lemma avatarConnOuter_some (E : List (Nat × Nat)) (dist : List (Nat × Nat)) :
    ∀ l, (∀ p ∈ l, ∀ e ∈ edges_of E p.1, e ∈ dist.map Prod.fst) →
      ∃ b, avatarConnOuter E dist l = some b := by
  intro l
  induction l with
  | nil => exact fun _ => ⟨true, rfl⟩
  | cons p rest ih =>
    intro hval
    obtain ⟨b1, hb1⟩ := avatarConnInner_some dist p.2 (edges_of E p.1)
      (hval p (List.mem_cons_self _ _))
    cases b1 with
    | false =>
      refine ⟨false, ?_⟩
      unfold avatarConnOuter
      rw [hb1]
    | true =>
      obtain ⟨b, hb⟩ := ih (fun q hq => hval q (List.mem_cons_of_mem _ hq))
      refine ⟨b, ?_⟩
      unfold avatarConnOuter
      rw [hb1]
      exact hb

lemma avatar_connectivityC_some (E : List (Nat × Nat)) (n v : Nat)
    (hE : EdgesValid E n) (hv : v < n) :
    ∃ b, avatar_connectivityC E n v = some b := by
  obtain ⟨ad, had, _, hclosed⟩ := avatar_distanceC_facts E n v hE hv
  obtain ⟨b, hb⟩ := avatarConnOuter_some E ad ad hclosed
  refine ⟨b, ?_⟩
  unfold avatar_connectivityC
  rw [had]
  exact hb

lemma is_avatar_graphC_eq_body {E : List (Nat × Nat)} {n v c : Nat}
    (hc : contractibleC E n v = some c) :
    is_avatar_graphC E n v
      = (if c ≠ 0 then some false
         else
           match distanceC E n v with
           | none => none
           | some (Except.error _) => some false
           | some (Except.ok _) =>
             match max_avatarsC E n v with
             | none => none
             | some ma =>
               match ma.2 with
               | [m] =>
                 match all_reachable_alongC E n m v with
                 | none => none
                 | some false => some false
                 | some true => avatar_connectivityC E n v
               | _ => some false) := by
  unfold is_avatar_graphC
  rw [hc]

lemma is_avatar_graphC_eq_body2 {E : List (Nat × Nat)} {n v c : Nat}
    {l : List (Nat × Nat)} (hc : contractibleC E n v = some c) (hc0 : c = 0)
    (hd : distanceC E n v = some (Except.ok l)) :
    is_avatar_graphC E n v
      = (match max_avatarsC E n v with
         | none => none
         | some ma =>
           match ma.2 with
           | [m] =>
             match all_reachable_alongC E n m v with
             | none => none
             | some false => some false
             | some true => avatar_connectivityC E n v
           | _ => some false) := by
  rw [is_avatar_graphC_eq_body hc, if_neg (by omega), hd]

lemma is_avatar_graphC_some (E : List (Nat × Nat)) (n v : Nat)
    (hE : EdgesValid E n) (hv : v < n) :
    ∃ b, is_avatar_graphC E n v = some b := by
  obtain ⟨c, hc⟩ := contractibleC_some E n v hE hv
  by_cases hc0 : c ≠ 0
  · exact ⟨false, by rw [is_avatar_graphC_eq_body hc, if_pos hc0]⟩
  · have hc0' : c = 0 := by omega
    obtain ⟨ad, had, hma, hmalt⟩ := max_avatarsC_spec E n v hE hv
    rcases distanceC_spec E n v hE hv with ⟨l, hd, hfst, _⟩ | ⟨l, hd, _, _, _, _, _⟩
    · have hbody : is_avatar_graphC E n v
          = (match (maxFold ad).2 with
             | [m] =>
               match all_reachable_alongC E n m v with
               | none => none
               | some false => some false
               | some true => avatar_connectivityC E n v
             | _ => some false) := by
        rw [is_avatar_graphC_eq_body2 hc hc0' hd, hma]
      rw [hbody]
      rcases hma2 : (maxFold ad).2 with _ | ⟨m, rest⟩
      · exact ⟨false, rfl⟩
      · rcases rest with _ | ⟨m2, rest2⟩
        · have hmn : m < n := hmalt m (by rw [hma2]; exact List.mem_cons_self _ _)
          obtain ⟨ar, har⟩ := alongC_some E n m v hE hmn hv
          have hb1 : ∃ b1, all_reachable_alongC E n m v = some b1 := by
            unfold all_reachable_alongC
            rw [har]
            exact ⟨_, rfl⟩
          obtain ⟨b1, hb1⟩ := hb1
          show ∃ b, (match all_reachable_alongC E n m v with
            | none => none
            | some false => some false
            | some true => avatar_connectivityC E n v) = some b
          rw [hb1]
          cases b1 with
          | false => exact ⟨false, rfl⟩
          | true =>
            obtain ⟨b2, hb2⟩ := avatar_connectivityC_some E n v hE hv
            exact ⟨b2, hb2⟩
        · exact ⟨false, rfl⟩
    · rw [is_avatar_graphC_eq_body hc, if_neg (by omega), hd]
      exact ⟨false, rfl⟩

lemma is_avatar_graphC_true_max {E : List (Nat × Nat)} {n v : Nat}
    (h : is_avatar_graphC E n v = some true) :
    ∃ ma, max_avatarsC E n v = some ma ∧ ∃ m, ma.2 = [m] := by
  rcases hc : contractibleC E n v with _ | c
  · have hnone : is_avatar_graphC E n v = none := by
      unfold is_avatar_graphC
      rw [hc]
    rw [hnone] at h
    cases h
  · rw [is_avatar_graphC_eq_body hc] at h
    by_cases hc0 : c ≠ 0
    · rw [if_pos hc0] at h
      simp at h
    · rw [if_neg hc0] at h
      rcases hd : distanceC E n v with _ | r
      · rw [hd] at h
        cases h
      · rcases r with e | l
        · rw [hd] at h
          replace h : (some false : Option Bool) = some true := h
          simp at h
        · rw [hd] at h
          replace h : (match max_avatarsC E n v with
              | none => none
              | some ma =>
                match ma.2 with
                | [m] =>
                  match all_reachable_alongC E n m v with
                  | none => none
                  | some false => some false
                  | some true => avatar_connectivityC E n v
                | _ => some false) = some true := h
          rcases hma : max_avatarsC E n v with _ | ma
          · rw [hma] at h
            replace h : (none : Option Bool) = some true := h
            cases h
          · rw [hma] at h
            replace h : (match ma.2 with
                | [m] =>
                  match all_reachable_alongC E n m v with
                  | none => none
                  | some false => some false
                  | some true => avatar_connectivityC E n v
                | _ => some false) = some true := h
            rcases hma2 : ma.2 with _ | ⟨m, rest⟩
            · rw [hma2] at h
              replace h : (some false : Option Bool) = some true := h
              simp at h
            · rcases rest with _ | _
              · exact ⟨ma, rfl, m, hma2⟩
              · rw [hma2] at h
                replace h : (some false : Option Bool) = some true := h
                simp at h

/-! ### The corifier -/

lemma getD_set_self {α : Type} {l : List α} {i : Nat} {x d : α} (h : i < l.length) :
    (l.set i x).getD i d = x := by
  rw [List.getD_eq_getElem _ _ (by simpa using h), List.getElem_set, if_pos rfl]

lemma getD_set_ne {α : Type} {l : List α} {i j : Nat} {x d : α} (h : i ≠ j) :
    (l.set i x).getD j d = l.getD j d := by
  rw [List.getD_eq_getElem?_getD, List.getD_eq_getElem?_getD, List.getElem?_set_ne h]

lemma list_ext_getD {α : Type} {l₁ l₂ : List α} (d : α) (hlen : l₁.length = l₂.length)
    (h : ∀ j, j < l₁.length → l₁.getD j d = l₂.getD j d) : l₁ = l₂ := by
  apply List.ext_getElem hlen
  intro i h1 h2
  have := h i h1
  rwa [List.getD_eq_getElem _ _ h1, List.getD_eq_getElem _ _ h2] at this

lemma graph_ext {g₁ g₂ : Graph} (hn : g₁.nodes = g₂.nodes)
    (he : g₁.edges = g₂.edges) : g₁ = g₂ := by
  cases g₁
  cases g₂
  simp_all

lemma corifyStep_spec (g : Graph) (i : Nat)
    (hE : EdgesValid g.edges g.nodes.length) (hi : i < g.nodes.length) :
    corifyStep g i
      = some { g with nodes := g.nodes.set i (targetNode g.edges g.nodes.length i) } := by
  obtain ⟨b, hb⟩ := is_avatar_graphC_some g.edges g.nodes.length i hE hi
  have hbg : is_avatar_graph g i = some b := hb
  unfold corifyStep
  rw [hbg]
  cases b with
  | false =>
    have htarget : targetNode g.edges g.nodes.length i
        = { core := false, uniq := none } := by
      unfold targetNode
      rw [hb]
    rw [htarget]
    rfl
  | true =>
    obtain ⟨ma, hma, m, hm2⟩ := is_avatar_graphC_true_max hb
    have hmag : max_avatars g i = some ma := hma
    have htarget : targetNode g.edges g.nodes.length i
        = { core := true, uniq := some m } := by
      unfold targetNode
      rw [hb]
      show Node.mk true ((max_avatarsC g.edges g.nodes.length i).map
          (fun x => x.2.headD 0)) = Node.mk true (some m)
      rw [hma]
      show Node.mk true (some (ma.2.headD 0)) = Node.mk true (some m)
      rw [hm2]
      rfl
    rw [htarget]
    show (match max_avatars g i with
      | none => none
      | some ma =>
        match ma.2 with
        | m :: _ =>
          some { g with nodes := g.nodes.set i { core := true, uniq := some m } }
        | [] => none) = _
    rw [hmag]
    show (match ma.2 with
      | m :: _ =>
        some { g with nodes := g.nodes.set i { core := true, uniq := some m } }
      | [] => none) = _
    rw [hm2]

lemma corifyAux_spec (E : List (Nat × Nat)) (n : Nat) (hE : EdgesValid E n) :
    ∀ (l : List Nat) (g : Graph), g.edges = E → g.nodes.length = n →
      (∀ i ∈ l, i < n) →
      ∃ g', corifyAux g l = some g' ∧ g'.edges = E ∧ g'.nodes.length = n ∧
        ∀ j, j < n →
          g'.nodes.getD j ⟨false, none⟩
            = if j ∈ l then targetNode E n j else g.nodes.getD j ⟨false, none⟩ := by
  intro l
  induction l with
  | nil =>
    intro g hg1 hg2 _
    exact ⟨g, rfl, hg1, hg2, fun j _ => by simp⟩
  | cons i rest ih =>
    intro g hg1 hg2 hvalid
    have hi : i < n := hvalid i (List.mem_cons_self _ _)
    have hstep := corifyStep_spec g i (by rw [hg1, hg2]; exact hE) (by rw [hg2]; exact hi)
    rw [hg1, hg2] at hstep
    set g1 : Graph := { nodes := g.nodes.set i (targetNode E n i), edges := E }
      with hg1def
    have hg1e : g1.edges = E := rfl
    have hg1n : g1.nodes.length = n := by
      show (g.nodes.set i (targetNode E n i)).length = n
      rw [List.length_set]
      exact hg2
    obtain ⟨g', ha, hb', hc', hd'⟩ := ih g1 hg1e hg1n
      (fun x hx => hvalid x (List.mem_cons_of_mem _ hx))
    refine ⟨g', ?_, hb', hc', ?_⟩
    · show (match corifyStep g i with
        | none => none
        | some g' => corifyAux g' rest) = some g'
      rw [hstep]
      exact ha
    · intro j hj
      rw [hd' j hj]
      by_cases hjr : j ∈ rest
      · rw [if_pos hjr, if_pos (List.mem_cons_of_mem _ hjr)]
      · rw [if_neg hjr]
        by_cases hji : j = i
        · subst hji
          rw [if_pos (List.mem_cons_self _ _)]
          show (g.nodes.set j (targetNode E n j)).getD j ⟨false, none⟩ = _
          rw [getD_set_self (by rw [hg2]; exact hj)]
        · have : j ∉ i :: rest := by
            intro hc
            rcases List.mem_cons.1 hc with h' | h'
            · exact hji h'
            · exact hjr h'
          rw [if_neg this]
          show (g.nodes.set i (targetNode E n i)).getD j ⟨false, none⟩ = _
          rw [getD_set_ne (fun hc => hji hc.symm)]

/-- `corify` succeeds on a graph with valid edges; it rewrites every node to the
value determined by `is_avatar_graphC` and `max_avatarsC`, leaving the edge list
and the node count unchanged. -/
lemma corify_spec_aux (g : Graph) (hE : EdgesValid g.edges g.nodes.length) :
    ∃ g', corify g = some g' ∧ g'.edges = g.edges ∧
      g'.nodes.length = g.nodes.length ∧
      ∀ j, j < g.nodes.length →
        g'.nodes.getD j ⟨false, none⟩ = targetNode g.edges g.nodes.length j := by
  obtain ⟨g', h1, h2, h3, h4⟩ := corifyAux_spec g.edges g.nodes.length hE
    (List.range g.nodes.length) g rfl rfl (by simp)
  refine ⟨g', h1, h2, h3, fun j hj => ?_⟩
  rw [h4 j hj, if_pos (List.mem_range.2 hj)]

/-! ### Lemmas about `swap` -/

lemma swapNode_invol (a b x : Nat) : swapNode a b (swapNode a b x) = x := by
  unfold swapNode
  split_ifs <;> omega

lemma swap_pair_invol (a b x y : Nat) (hxy : x ≤ y) :
    (min (swapNode a b (min (swapNode a b x) (swapNode a b y)))
       (swapNode a b (max (swapNode a b x) (swapNode a b y))),
     max (swapNode a b (min (swapNode a b x) (swapNode a b y)))
       (swapNode a b (max (swapNode a b x) (swapNode a b y)))) = (x, y) := by
  have hsx := swapNode_invol a b x
  have hsy := swapNode_invol a b y
  rcases Nat.le_total (swapNode a b x) (swapNode a b y) with h | h
  · rw [min_eq_left h, max_eq_right h, hsx, hsy, min_eq_left hxy, max_eq_right hxy]
  · rw [min_eq_right h, max_eq_left h, hsx, hsy, min_eq_right hxy, max_eq_left hxy]

lemma listSwap_length {l : List Node} {a b : Nat} :
    (listSwap l a b).length = l.length := by
  unfold listSwap
  rw [List.length_set, List.length_set]

lemma listSwap_getD {l : List Node} {a b : Nat} (ha : a < l.length)
    (hb : b < l.length) (j : Nat) :
    (listSwap l a b).getD j ⟨false, none⟩
      = if j = b then l.getD a ⟨false, none⟩
        else if j = a then l.getD b ⟨false, none⟩
        else l.getD j ⟨false, none⟩ := by
  unfold listSwap
  by_cases hjb : j = b
  · subst hjb
    rw [if_pos rfl, getD_set_self (by rw [List.length_set]; exact hb)]
  · rw [if_neg hjb, getD_set_ne (fun hc => hjb hc.symm)]
    by_cases hja : j = a
    · subst hja
      rw [if_pos rfl, getD_set_self ha]
    · rw [if_neg hja, getD_set_ne (fun hc => hja hc.symm)]

lemma listSwap_invol {l : List Node} {a b : Nat} (ha : a < l.length)
    (hb : b < l.length) :
    listSwap (listSwap l a b) a b = l := by
  have ha1 : a < (listSwap l a b).length := by rw [listSwap_length]; exact ha
  have hb1 : b < (listSwap l a b).length := by rw [listSwap_length]; exact hb
  apply list_ext_getD (⟨false, none⟩ : Node)
  · rw [listSwap_length, listSwap_length]
  · intro j hj
    rw [listSwap_getD ha1 hb1 j]
    by_cases hjb : j = b
    · rw [if_pos hjb, listSwap_getD ha hb a]
      by_cases hab : a = b
      · rw [if_pos hab, hjb, hab]
      · rw [if_neg hab, if_pos rfl, hjb]
    · rw [if_neg hjb]
      by_cases hja : j = a
      · rw [if_pos hja, listSwap_getD ha hb b, if_pos rfl, hja]
      · rw [if_neg hja, listSwap_getD ha hb j, if_neg hjb, if_neg hja]

lemma map_listSwap (f : Node → Node) {l : List Node} {a b : Nat}
    (ha : a < l.length) (hb : b < l.length) :
    (listSwap l a b).map f = listSwap (l.map f) a b := by
  unfold listSwap
  rw [List.map_set, List.map_set]
  have h1 : f (l.getD b ⟨false, none⟩) = (l.map f).getD b (f ⟨false, none⟩) := by
    rw [List.getD_eq_getElem _ _ hb, List.getD_eq_getElem _ _ (by simpa using hb),
      List.getElem_map]
  have h2 : f (l.getD a ⟨false, none⟩) = (l.map f).getD a (f ⟨false, none⟩) := by
    rw [List.getD_eq_getElem _ _ ha, List.getD_eq_getElem _ _ (by simpa using ha),
      List.getElem_map]
  rw [h1, h2]
  have h3 : (l.map f).getD b (f ⟨false, none⟩) = (l.map f).getD b ⟨false, none⟩ := by
    rw [List.getD_eq_getElem _ _ (by simpa using hb),
      List.getD_eq_getElem _ _ (by simpa using hb)]
  have h4 : (l.map f).getD a (f ⟨false, none⟩) = (l.map f).getD a ⟨false, none⟩ := by
    rw [List.getD_eq_getElem _ _ (by simpa using ha),
      List.getD_eq_getElem _ _ (by simpa using ha)]
  rw [h3, h4]

lemma nodeSwap_invol (a b : Nat) (nd : Node) :
    { Node.mk nd.core (nd.uniq.map (swapNode a b)) with
      uniq := (nd.uniq.map (swapNode a b)).map (swapNode a b) } = nd := by
  cases nd with
  | mk core uniq =>
    cases uniq with
    | none => rfl
    | some u => simp [swapNode_invol]

/-! ### Final helpers for the claim theorems -/

lemma map_fst_sorted_lt {l : List (Nat × Nat)} (hs : l.Sorted pairLE)
    (hnd : (l.map Prod.fst).Nodup) : (l.map Prod.fst).Sorted (· < ·) := by
  have hsorted : (l.map Prod.fst).Sorted (· ≤ ·) := by
    rw [List.Sorted, List.pairwise_map]
    refine hs.imp ?_
    intro a b hab
    rcases hab with h | ⟨h, _⟩
    · exact Nat.le_of_lt h
    · exact Nat.le_of_eq h
  exact (hsorted.and hnd).imp (fun h => Nat.lt_of_le_of_ne h.1 h.2)

lemma map_id_of_pointwise {α : Type} (f : α → α) (l : List α)
    (h : ∀ x ∈ l, f x = x) : l.map f = l := by
  induction l with
  | nil => rfl
  | cons x xs ih =>
    rw [List.map_cons, h x (List.mem_cons_self _ _),
      ih (fun y hy => h y (List.mem_cons_of_mem _ hy))]

lemma targetNode_false {E : List (Nat × Nat)} {n i : Nat}
    (hb : is_avatar_graphC E n i = some false) :
    targetNode E n i = ⟨false, none⟩ := by
  unfold targetNode
  rw [hb]

lemma targetNode_true {E : List (Nat × Nat)} {n i : Nat} {ma : Nat × List Nat} {m : Nat}
    (hb : is_avatar_graphC E n i = some true)
    (hma : max_avatarsC E n i = some ma) (hm2 : ma.2 = [m]) :
    targetNode E n i = ⟨true, some m⟩ := by
  unfold targetNode
  rw [hb]
  show Node.mk true ((max_avatarsC E n i).map (fun x => x.2.headD 0))
    = Node.mk true (some m)
  rw [hma]
  show Node.mk true (some (ma.2.headD 0)) = Node.mk true (some m)
  rw [hm2]
  rfl

example : distanceC [(0, 1)] 2 0 = some (Except.ok [(0, 0), (1, 1)]) := by decide
example : distanceC [(0, 1)] 2 1 = some (Except.ok [(0, 1), (1, 0)]) := by decide
example :
    avatar_distanceC [(0, 1), (0, 2), (1, 3), (2, 3), (1, 4), (3, 4)] 5 0 =
      some [(0, 0), (1, 1), (2, 1), (3, 2), (4, 3)] := by decide
example : max_avatarsC [(0, 1), (0, 2), (1, 3), (2, 3)] 4 0 = some (2, [3]) := by decide
example : contractibleC [(0, 1), (1, 2)] 3 0 = some 1 := by decide

/-! ### The claims -/

/-- Claim C1: for every simple undirected graph (canonical, duplicate-free,
loop-free edge list over valid vertex indices) that is connected from the valid
vertex `v`, `distance v` returns success with one entry `(w, d)` for every vertex
`w`, sorted ascending by vertex index, where `d` is the length of a shortest path
between `v` and `w`. -/
theorem C1_distance_shortest (g : Graph) (v : Nat)
    (hE : EdgesValid g.edges g.nodes.length)
    (hsimple : ∀ p ∈ g.edges, p.1 < p.2) (hnd : g.edges.Nodup)
    (hv : v < g.nodes.length)
    (hconn : ∀ w, w < g.nodes.length → Reachable g.edges v w) :
    ∃ l, distance g v = some (Except.ok l) ∧
      l.map Prod.fst = List.range g.nodes.length ∧
      ∀ p ∈ l, IsShortest g.edges v p.1 p.2 := by
  rcases distanceC_spec g.edges g.nodes.length v hE hv with
    ⟨l, hd, h1, h2⟩ | ⟨l, hd, _, _, _, hiff, hlen⟩
  · exact ⟨l, hd, h1, h2⟩
  · exfalso
    have hsub : List.range g.nodes.length ⊆ l.map Prod.fst := by
      intro w hw
      exact (hiff w).2 (hconn w (List.mem_range.1 hw))
  
    have hle := (List.subperm_of_subset (List.nodup_range _) hsub).length_le
    rw [List.length_range, List.length_map] at hle
    omega

/-- C1 witness: the two-vertex graph with the single edge `(0, 1)`. -/
theorem C1_witness :
    ∃ l, distance ⟨[⟨false, none⟩, ⟨false, none⟩], [(0, 1)]⟩ 0
        = some (Except.ok l) ∧
      l.map Prod.fst = List.range 2 ∧
      ∀ p ∈ l, IsShortest [(0, 1)] 0 p.1 p.2 :=
  C1_distance_shortest ⟨[⟨false, none⟩, ⟨false, none⟩], [(0, 1)]⟩ 0 (by decide)
    (by decide) (by decide) (by decide)
    (fun w hw => by
      have hw2 : w < 2 := hw
      match w, hw2 with
      | 0, _ => exact ⟨0, by decide⟩
      | 1, _ => exact ⟨1, by decide⟩)

/-- Claim C2: after `corify` returns, the edge list and node count are unchanged,
and for every vertex `i`: the core flag is set iff `is_avatar_graph i` holds; when
set, `uniq` is the single vertex of the list `max_avatars i` returns; when clear,
`uniq` is absent. -/
theorem C2_corify_marks (g : Graph) (hE : EdgesValid g.edges g.nodes.length) :
    ∃ g', corify g = some g' ∧ g'.edges = g.edges ∧
      g'.nodes.length = g.nodes.length ∧
      ∀ i, i < g.nodes.length →
        (((g'.nodes.getD i ⟨false, none⟩).core = true)
          ↔ is_avatar_graph g' i = some true) ∧
        ((g'.nodes.getD i ⟨false, none⟩).core = true →
          ∃ ma m, max_avatars g' i = some ma ∧ ma.2 = [m] ∧
            (g'.nodes.getD i ⟨false, none⟩).uniq = some m) ∧
        ((g'.nodes.getD i ⟨false, none⟩).core = false →
          (g'.nodes.getD i ⟨false, none⟩).uniq = none) := by
  obtain ⟨g', h1, h2, h3, h4⟩ := corify_spec_aux g hE
  refine ⟨g', h1, h2, h3, ?_⟩
  intro i hi
  have hgi : is_avatar_graph g' i = is_avatar_graphC g.edges g.nodes.length i := by
    show is_avatar_graphC g'.edges g'.nodes.length i = _
    rw [h2, h3]
  have hmaxi : max_avatars g' i = max_avatarsC g.edges g.nodes.length i := by
    show max_avatarsC g'.edges g'.nodes.length i = _
    rw [h2, h3]
  obtain ⟨b, hb⟩ := is_avatar_graphC_some g.edges g.nodes.length i hE hi
  rw [h4 i hi, hgi, hb]
  cases b with
  | false =>
    rw [targetNode_false hb]
    refine ⟨by simp, ?_, fun _ => rfl⟩
    intro hc
    cases hc
  | true =>
    obtain ⟨ma, hma, m, hm2⟩ := is_avatar_graphC_true_max hb
    rw [targetNode_true hb hma hm2]
    refine ⟨by simp, ?_, ?_⟩
    · intro _
      exact ⟨ma, m, by rw [hmaxi]; exact hma, hm2, rfl⟩
    · intro hc
      cases hc

/-- C2 witness: the two-vertex graph with edge `(0, 1)` has valid edges. -/
theorem C2_witness :
    ∃ g', corify ⟨[⟨false, none⟩, ⟨false, none⟩], [(0, 1)]⟩ = some g' ∧
      g'.edges = [(0, 1)] ∧ g'.nodes.length = 2 ∧
      ∀ i, i < 2 →
        (((g'.nodes.getD i ⟨false, none⟩).core = true)
          ↔ is_avatar_graph g' i = some true) ∧
        ((g'.nodes.getD i ⟨false, none⟩).core = true →
          ∃ ma m, max_avatars g' i = some ma ∧ ma.2 = [m] ∧
            (g'.nodes.getD i ⟨false, none⟩).uniq = some m) ∧
        ((g'.nodes.getD i ⟨false, none⟩).core = false →
          (g'.nodes.getD i ⟨false, none⟩).uniq = none) :=
  C2_corify_marks ⟨[⟨false, none⟩, ⟨false, none⟩], [(0, 1)]⟩ (by decide)

/-- Counterexample to claim C3 as stated: on the one-vertex graph with no edges,
`distance 0` returns success with `[(0, 0)]`, not the claimed failure — the
discovery loop is skipped entirely because `dist.len() < nodes.len()` is false. -/
theorem C3_counterexample :
    distance ⟨[⟨false, none⟩], []⟩ 0 = some (Except.ok [(0, 0)]) ∧
    distance ⟨[⟨false, none⟩], []⟩ 0 ≠ some (Except.error [(0, 0)]) := by
  decide

/-- Claim C3 (amended): for every graph consisting of exactly one vertex and no
edges, `distance 0` returns success carrying `[(0, 0)]`. -/
theorem C3_singleton_distance (g : Graph) (h1 : g.nodes.length = 1)
    (h2 : g.edges = []) : distance g 0 = some (Except.ok [(0, 0)]) := by
  show distanceC g.edges g.nodes.length 0 = _
  rw [h1, h2]
  decide

/-- C3 witness: the concrete one-vertex graph. -/
theorem C3_witness : distance ⟨[⟨false, none⟩], []⟩ 0 = some (Except.ok [(0, 0)]) :=
  C3_singleton_distance ⟨[⟨false, none⟩], []⟩ (by decide) (by decide)

/-- Claim C4: on a graph with valid edges and a valid source, `distance` always
returns a value; it succeeds iff every vertex is reachable from the source; and a
failure carries exactly the reachable vertices, sorted strictly ascending by
vertex index. -/
theorem C4_distance_connectivity (g : Graph) (v : Nat)
    (hE : EdgesValid g.edges g.nodes.length) (hv : v < g.nodes.length) :
    (∃ r, distance g v = some r) ∧
    ((∃ l, distance g v = some (Except.ok l)) ↔
      ∀ w, w < g.nodes.length → Reachable g.edges v w) ∧
    (∀ l, distance g v = some (Except.error l) →
      (l.map Prod.fst).Sorted (· < ·) ∧
      ∀ w, w ∈ l.map Prod.fst ↔ Reachable g.edges v w) := by
  rcases distanceC_spec g.edges g.nodes.length v hE hv with
    ⟨l, hd, h1, h2⟩ | ⟨l, hd, hsort, hnd, hlt, hiff, hlen⟩
  · have hd' : distance g v = some (Except.ok l) := hd
    refine ⟨⟨_, hd'⟩, ?_, ?_⟩
    · constructor
      · intro _ w hw
        have hwmem : w ∈ l.map Prod.fst := by
          rw [h1]
          exact List.mem_range.2 hw
        obtain ⟨p, hp, hpw⟩ := List.mem_map.1 hwmem
        exact ⟨p.2, hpw ▸ (h2 p hp).1⟩
      · intro _
        exact ⟨l, hd⟩
    · intro l' hl'
      rw [hd'] at hl'
      cases Option.some.inj hl'
  · have hd' : distance g v = some (Except.error l) := hd
    have hnotconn : ¬∀ w, w < g.nodes.length → Reachable g.edges v w := by
      intro hconn
      have hsub : List.range g.nodes.length ⊆ l.map Prod.fst := by
        intro w hw
        exact (hiff w).2 (hconn w (List.mem_range.1 hw))
      have hle := (List.subperm_of_subset (List.nodup_range _) hsub).length_le
      rw [List.length_range, List.length_map] at hle
      omega
    refine ⟨⟨_, hd'⟩, ?_, ?_⟩
    · constructor
      · intro ⟨l', hl'⟩
        rw [hd'] at hl'
        cases Option.some.inj hl'
      · intro hconn
        exact absurd hconn hnotconn
    · intro l' hl'
      rw [hd'] at hl'
      have : l = l' := Except.error.inj (Option.some.inj hl')
      subst this
      exact ⟨map_fst_sorted_lt hsort hnd, hiff⟩

/-- C4 witness: the two-vertex graph with edge `(0, 1)`, source `0`. -/
theorem C4_witness :
    (∃ r, distance ⟨[⟨false, none⟩, ⟨false, none⟩], [(0, 1)]⟩ 0 = some r) ∧
    ((∃ l, distance ⟨[⟨false, none⟩, ⟨false, none⟩], [(0, 1)]⟩ 0
        = some (Except.ok l)) ↔
      ∀ w, w < 2 → Reachable [(0, 1)] 0 w) ∧
    (∀ l, distance ⟨[⟨false, none⟩, ⟨false, none⟩], [(0, 1)]⟩ 0
        = some (Except.error l) →
      (l.map Prod.fst).Sorted (· < ·) ∧
      ∀ w, w ∈ l.map Prod.fst ↔ Reachable [(0, 1)] 0 w) :=
  C4_distance_connectivity ⟨[⟨false, none⟩, ⟨false, none⟩], [(0, 1)]⟩ 0
    (by decide) (by decide)

/-- Claim C5: for the pentagon-with-chords graph on vertices `{0, 1, 2, 3, 4}` with
edges `(0,1), (0,2), (1,3), (2,3), (1,4), (3,4)`, the call `avatar_distance 0`
returns exactly `[(0,0), (1,1), (2,1), (3,2), (4,3)]`. -/
theorem C5_pentagon_avatar_distance :
    avatar_distance ⟨[⟨false, none⟩, ⟨false, none⟩, ⟨false, none⟩, ⟨false, none⟩,
      ⟨false, none⟩], [(0, 1), (0, 2), (1, 3), (2, 3), (1, 4), (3, 4)]⟩ 0
      = some [(0, 0), (1, 1), (2, 1), (3, 2), (4, 3)] := by
  decide

/-- Claim C6: `corify` is idempotent — running it a second time reproduces exactly
the state after the first run (same nodes, flags, `uniq` fields, and edges). -/
theorem C6_corify_idempotent (g : Graph) (hE : EdgesValid g.edges g.nodes.length) :
    ∃ g', corify g = some g' ∧ corify g' = some g' := by
  obtain ⟨g', h1, h2, h3, h4⟩ := corify_spec_aux g hE
  have hE' : EdgesValid g'.edges g'.nodes.length := by
    rw [h2, h3]
    exact hE
  obtain ⟨g'', k1, k2, k3, k4⟩ := corify_spec_aux g' hE'
  have hgg : g'' = g' := by
    apply graph_ext
    · apply list_ext_getD (⟨false, none⟩ : Node)
      · rw [k3]
      · intro j hj
        have hj' : j < g'.nodes.length := by rw [← k3]; exact hj
        have hj'' : j < g.nodes.length := by rw [← h3]; exact hj'
        rw [k4 j hj', h4 j hj'']
        rw [h2, h3]
    · exact k2
  rw [hgg] at k1
  exact ⟨g', h1, k1⟩

/-- C6 witness: the two-vertex graph with edge `(0, 1)` has valid edges. -/
theorem C6_witness :
    ∃ g', corify ⟨[⟨false, none⟩, ⟨false, none⟩], [(0, 1)]⟩ = some g' ∧
      corify g' = some g' :=
  C6_corify_idempotent ⟨[⟨false, none⟩, ⟨false, none⟩], [(0, 1)]⟩ (by decide)

/-- Counterexample to claim C7 as stated: on the empty graph, `max_avatars 0`
does not return `(0, [])` — the child-count table write in `avatar_distance`
indexes an empty vector, a panic, modelled as `none`. -/
theorem C7_counterexample :
    max_avatars ⟨[], []⟩ 0 = none ∧ max_avatars ⟨[], []⟩ 0 ≠ some (0, []) := by
  decide

/-- Claim C7 (amended): on the empty graph, `max_avatars i` returns no value for
every index `i`: `avatar_distance` always lists the source, so the write
`count_children[source]` is out of bounds when the node table is empty. -/
theorem C7_empty_max_avatars (i : Nat) : max_avatars ⟨[], []⟩ i = none := rfl

/-- Claim C8: on a graph whose edge list is canonical (each stored pair ordered)
and for valid vertex indices `a` and `b`, two successive `swap a b` calls restore
the original graph exactly — node sequence, edge list, and `uniq` fields. -/
theorem C8_swap_involution (g : Graph) (a b : Nat)
    (ha : a < g.nodes.length) (hb : b < g.nodes.length)
    (hcanon : ∀ p ∈ g.edges, p.1 ≤ p.2) :
    swap (swap g a b) a b = g := by
  apply graph_ext
  · show listSwap
        ((listSwap (g.nodes.map
          (fun nd => { nd with uniq := nd.uniq.map (swapNode a b) })) a b).map
          (fun nd => { nd with uniq := nd.uniq.map (swapNode a b) })) a b
      = g.nodes
    have hma : a < (g.nodes.map
        (fun nd => { nd with uniq := nd.uniq.map (swapNode a b) })).length := by
      simpa using ha
    have hmb : b < (g.nodes.map
        (fun nd => { nd with uniq := nd.uniq.map (swapNode a b) })).length := by
      simpa using hb
    rw [map_listSwap _ hma hmb, List.map_map]
    have hid : g.nodes.map
        ((fun nd => { nd with uniq := nd.uniq.map (swapNode a b) }) ∘
         (fun nd => { nd with uniq := nd.uniq.map (swapNode a b) })) = g.nodes :=
      map_id_of_pointwise _ _ (fun nd _ => nodeSwap_invol a b nd)
    rw [hid]
    exact listSwap_invol ha hb
  · show (g.edges.map (fun p =>
        (min (swapNode a b p.1) (swapNode a b p.2),
         max (swapNode a b p.1) (swapNode a b p.2)))).map (fun p =>
        (min (swapNode a b p.1) (swapNode a b p.2),
         max (swapNode a b p.1) (swapNode a b p.2)))
      = g.edges
    rw [List.map_map]
    refine map_id_of_pointwise _ _ ?_
    intro p hp
    obtain ⟨x, y⟩ := p
    exact swap_pair_invol a b x y (hcanon _ hp)

/-- C8 witness: the two-vertex graph with edge `(0, 1)`, swapping `0` and `1`. -/
theorem C8_witness :
    swap (swap ⟨[⟨false, none⟩, ⟨true, some 0⟩], [(0, 1)]⟩ 0 1) 0 1
      = ⟨[⟨false, none⟩, ⟨true, some 0⟩], [(0, 1)]⟩ :=
  C8_swap_involution ⟨[⟨false, none⟩, ⟨true, some 0⟩], [(0, 1)]⟩ 0 1
    (by decide) (by decide) (by decide)

/-- Claim C9: on a graph with valid edges and a valid source, `avatar_distance`
returns a value, and each of its entries is at least the entry `distance` assigned
to the same vertex: the aggregation pass only ever raises values. -/
theorem C9_avatar_ge_distance (g : Graph) (v : Nat)
    (hE : EdgesValid g.edges g.nodes.length) (hv : v < g.nodes.length) :
    ∃ r ad, distance g v = some r ∧ avatar_distance g v = some ad ∧
      ∀ p ∈ ad, ∃ q ∈ exceptPayload r, q.1 = p.1 ∧ q.2 ≤ p.2 := by
  obtain ⟨r, ad, hd, had, _, hge⟩ :=
    avatar_distanceC_spec g.edges g.nodes.length v hE hv
  exact ⟨r, ad, hd, had, hge⟩

/-- C9 witness: the two-vertex graph with edge `(0, 1)`, source `0`. -/
theorem C9_witness :
    ∃ r ad, distance ⟨[⟨false, none⟩, ⟨false, none⟩], [(0, 1)]⟩ 0 = some r ∧
      avatar_distance ⟨[⟨false, none⟩, ⟨false, none⟩], [(0, 1)]⟩ 0 = some ad ∧
      ∀ p ∈ ad, ∃ q ∈ exceptPayload r, q.1 = p.1 ∧ q.2 ≤ p.2 :=
  C9_avatar_ge_distance ⟨[⟨false, none⟩, ⟨false, none⟩], [(0, 1)]⟩ 0
    (by decide) (by decide)

/-- Claim C10: on a graph with valid edges and a valid source, the partial list
carried by a failing `distance` is closed under adjacency — every neighbour of a
listed vertex is itself listed — and consequently `avatar_connectivity` always
returns a value (its internal look-ups never reach the `unwrap` panic), even on
graphs disconnected from the source. -/
theorem C10_err_closed_conn_total (g : Graph) (v : Nat)
    (hE : EdgesValid g.edges g.nodes.length) (hv : v < g.nodes.length) :
    (∀ l, distance g v = some (Except.error l) →
      ∀ p ∈ l, ∀ e ∈ edges_of g.edges p.1, ∃ d, (e, d) ∈ l) ∧
    (∃ b, avatar_connectivity g v = some b) := by
  constructor
  · intro l hl p hp e he
    obtain ⟨r, hd, _, _, hclosed⟩ := distanceC_payload g.edges g.nodes.length v hE hv
    have hd' : distance g v = some r := hd
    have hr : r = Except.error l := by
      rw [hd'] at hl
      exact Option.some.inj hl
    subst hr
    have hmem : e ∈ l.map Prod.fst := hclosed p hp e he
    obtain ⟨q, hq, hqe⟩ := List.mem_map.1 hmem
    refine ⟨q.2, ?_⟩
    have : (e, q.2) = q := by
      cases q
      simp_all
    rw [this]
    exact hq
  · exact avatar_connectivityC_some g.edges g.nodes.length v hE hv

/-- C10 witness: a three-vertex graph where vertex `2` is disconnected from the
source `0`, so `distance` fails and `avatar_connectivity` still returns. -/
theorem C10_witness :
    (∀ l, distance ⟨[⟨false, none⟩, ⟨false, none⟩, ⟨false, none⟩], [(0, 1)]⟩ 0
        = some (Except.error l) →
      ∀ p ∈ l, ∀ e ∈ edges_of [(0, 1)] p.1, ∃ d, (e, d) ∈ l) ∧
    (∃ b, avatar_connectivity
        ⟨[⟨false, none⟩, ⟨false, none⟩, ⟨false, none⟩], [(0, 1)]⟩ 0 = some b) :=
  C10_err_closed_conn_total ⟨[⟨false, none⟩, ⟨false, none⟩, ⟨false, none⟩],
    [(0, 1)]⟩ 0 (by decide) (by decide)
